import Mathlib

/-!
# Conway's Game of Life (`game_of_life.c`)

A shallow embedding of the simulation core of `src/game_of_life.c`: the
four-valued cell tag, the board `brd[brdWidth][brdHeight]`, the in-place step
pass, the collapse pass executed while drawing, and the per-frame control
logic of the main loop.

Conventions of the embedding.

* The board is a fixed-size array of `W` columns of `H` cells, `b.rd c r`
  standing for a read of `brd[c][r]` and `b.wr c r v` for the store
  `brd[c][r] = v`.  The passes are parameterised by the dimensions `W` and
  `H`; the program itself runs them at `brdWidth = 80`, `brdHeight = 64`.
* `unsigned int` values are naturals below `2 ^ 32`, `int` values are
  integers; conversions and unsigned subtraction are written out with
  `% 2 ^ 32`.
* The arithmetic of `double` (times, the update interval) is a parameter of
  the main loop, `DoubleArith`; `exactArith` is the exact arithmetic of the
  rationals.
* A store to `brd[c][r]` with `c` or `r` outside the array has no defined
  result; the frame function returns `none` there.
-/

namespace GameOfLife

/-! ## Data model -/

/-- The enum `Cell` of the source (lines 16-21). -/
inductive Cell where
  | CellDead
  | CellAlive
  | CellAliveDeadNext
  | CellDeadAliveNext
  deriving DecidableEq, Repr, Inhabited

open Cell

/-- The array `Cell brd[W][H]`: `W` columns of `H` cells each. -/
abbrev Board (W H : Nat) := Mathlib.Vector (Mathlib.Vector Cell H) W

/-- The read `brd[c][r]`.  Every read of the passes below is inside the array;
outside it the value is immaterial and taken to be `CellDead`. -/
def Board.rd {W H : Nat} (b : Board W H) (c r : Nat) : Cell :=
  if h : c < W ∧ r < H then (b.get ⟨c, h.1⟩).get ⟨r, h.2⟩ else CellDead

/-- The store `brd[c][r] = v` for `(c, r)` inside the array. -/
def Board.wr {W H : Nat} (b : Board W H) (c r : Nat) (v : Cell) : Board W H :=
  if h : c < W ∧ r < H then b.set ⟨c, h.1⟩ ((b.get ⟨c, h.1⟩).set ⟨r, h.2⟩ v) else b

def screenWidth : Nat := 800
def screenHeight : Nat := 640
def cellSize : Nat := 10
def brdWidth : Nat := screenWidth / cellSize
def brdHeight : Nat := screenHeight / cellSize

/-! ## Machine integers -/

/-- Number of values of an `unsigned int`. -/
def uintRange : Nat := 2 ^ 32

/-- Conversion of an `int` value to `unsigned int`. -/
def toUnsigned (i : Int) : Nat := (i % (uintRange : Int)).toNat

/-- Subtraction of two `unsigned int` values. -/
def usub (a b : Nat) : Nat := (a + uintRange - b % uintRange) % uintRange

/-- Multiplication of two `unsigned int` values. -/
def umul (a b : Nat) : Nat := (a * b) % uintRange

/-! ## Neighbour indices (lines 128-131) -/

/-- The expression `((i - 1) < 0) ? dim - 1 : i - 1` with `i` an `int` and `dim`
an `unsigned int`: the comparison is signed, the result is unsigned. -/
def prevIdx (dim : Nat) (i : Int) : Nat :=
  if i - 1 < 0 then usub dim 1 else toUnsigned (i - 1)

/-- The expression `((i + 1) > (dim - 1)) ? 0 : i + 1` with `i` an `int` and
`dim` an `unsigned int`: the comparison is unsigned. -/
def nextIdx (dim : Nat) (i : Int) : Nat :=
  if toUnsigned (i + 1) > usub dim 1 then 0 else toUnsigned (i + 1)

/-- Previous row `rp` of row `r` (line 128). -/
def rp (brdHeight : Nat) (r : Nat) : Nat := prevIdx brdHeight (r : Int)

/-- Next row `rn` of row `r` (line 129). -/
def rn (brdHeight : Nat) (r : Nat) : Nat := nextIdx brdHeight (r : Int)

/-- Previous column `cp` of column `c` (line 130). -/
def cp (brdWidth : Nat) (c : Nat) : Nat := prevIdx brdWidth (c : Int)

/-- Next column `cn` of column `c` (line 131). -/
def cn (brdWidth : Nat) (c : Nat) : Nat := nextIdx brdWidth (c : Int)

/-! ## The step pass (lines 125-171) -/

/-- One test `if (CellAlive == brd[c][r] || CellAliveDeadNext == brd[c][r]) numAlive++`:
the increment it contributes. -/
def aliveInc {W H : Nat} (b : Board W H) (c r : Nat) : Nat :=
  if b.rd c r = CellAlive ∨ b.rd c r = CellAliveDeadNext then 1 else 0

/-- The test `CellAlive == brd[c][r] || CellAliveDeadNext == brd[c][r]` of lines
132-153 at cell `p`. -/
def wasAliveAt {W H : Nat} (b : Board W H) (p : Nat × Nat) : Bool :=
  decide (b.rd p.1 p.2 = CellAlive ∨ b.rd p.1 p.2 = CellAliveDeadNext)

/-- The eight cells read by the neighbour count of cell `(c, r)`, in the order
of lines 132-155. -/
def neighbours (W H c r : Nat) : List (Nat × Nat) :=
  [(cp W c, rp H r), (c, rp H r), (cn W c, rp H r),
   (cp W c, r), (cn W c, r),
   (cp W c, rn H r), (c, rn H r), (cn W c, rn H r)]

/-- The value of `numAlive` after the eight tests of lines 132-155. -/
def numAlive {W H : Nat} (b : Board W H) (c r : Nat) : Nat :=
  aliveInc b (cp W c) (rp H r) + aliveInc b c (rp H r) + aliveInc b (cn W c) (rp H r)
    + aliveInc b (cp W c) r + aliveInc b (cn W c) r
    + aliveInc b (cp W c) (rn H r) + aliveInc b c (rn H r) + aliveInc b (cn W c) (rn H r)

/-- The rule of lines 157-169 applied to a tag `t` and a neighbour count `n`:
the tag stored in the cell afterwards. -/
def rule (t : Cell) (n : Nat) : Cell :=
  if t = CellAlive ∧ (2 = n ∨ 3 = n) then t
  else if t = CellDead ∧ 3 = n then CellDeadAliveNext
  else if t = CellAlive then CellAliveDeadNext
  else t

/-- The body of the two loops of the step pass at cell `(c, r)` (lines 127-169). -/
def stepCell {W H : Nat} (b : Board W H) (c r : Nat) : Board W H :=
  let n := numAlive b c r
  if b.rd c r = CellAlive ∧ (2 = n ∨ 3 = n) then b
  else if b.rd c r = CellDead ∧ 3 = n then b.wr c r CellDeadAliveNext
  else if b.rd c r = CellAlive then b.wr c r CellAliveDeadNext
  else b

/-- The loop nest `for (c = 0; c < W; c++) for (r = 0; r < H; r++) body`
threading a state of type `σ`. -/
def forCells {σ : Type} (W H : Nat) (body : σ → Nat → Nat → σ) (s : σ) : σ :=
  (List.range W).foldl (fun s c => (List.range H).foldl (fun s r => body s c r) s) s

/-- The cells of a `W` by `H` board in the order in which the loop nest visits
them: columns outer, rows inner. -/
def cells (W H : Nat) : List (Nat × Nat) :=
  (List.range W).flatMap fun c => (List.range H).map fun r => (c, r)

/-- The step pass: the in-place update of the whole board, columns outer, rows
inner (lines 125-171). -/
def stepPass {W H : Nat} (b : Board W H) : Board W H :=
  forCells W H stepCell b

/-! ## The collapse pass executed while drawing (lines 178-190) -/

/-- State of the draw loop: the board and the rectangles drawn so far, each
given by its `cellRect.x` and `cellRect.y`. -/
structure DrawState (W H : Nat) where
  brd : Board W H
  drawn : List (Nat × Nat)

/-- The tag that the draw loop stores in a cell holding `t` (lines 180-189). -/
def collapseTag (t : Cell) : Cell :=
  if t = CellAlive ∨ t = CellDeadAliveNext then CellAlive else CellDead

/-- The rectangle position `(cellRect.x, cellRect.y)` of cell `(c, r)`
(lines 183-184). -/
def cellRect (p : Nat × Nat) : Nat × Nat := (umul p.1 cellSize, umul p.2 cellSize)

/-- The test of line 180 at cell `p` of board `b`: whether the cell is drawn. -/
def drawTest {W H : Nat} (b : Board W H) (p : Nat × Nat) : Bool :=
  decide (b.rd p.1 p.2 = CellAlive ∨ b.rd p.1 p.2 = CellDeadAliveNext)

/-- The body of the draw loop at cell `(c, r)` (lines 180-189). -/
def drawCell {W H : Nat} (s : DrawState W H) (c r : Nat) : DrawState W H :=
  if s.brd.rd c r = CellAlive ∨ s.brd.rd c r = CellDeadAliveNext then
    { brd := s.brd.wr c r CellAlive,
      drawn := s.drawn ++ [cellRect (c, r)] }
  else
    { brd := s.brd.wr c r CellDead, drawn := s.drawn }

/-- The draw loop (lines 178-191), started with nothing drawn. -/
def drawPass {W H : Nat} (b : Board W H) : DrawState W H :=
  forCells W H drawCell { brd := b, drawn := [] }

/-- The board left by the draw loop: the collapse pass. -/
def collapsePass {W H : Nat} (b : Board W H) : Board W H :=
  (drawPass b).brd

/-- One generation: the step pass followed by the collapse pass. -/
def generation {W H : Nat} (b : Board W H) : Board W H :=
  collapsePass (stepPass b)

/-! ## The rule of the game as the specification words it -/

/-- The eight offsets `(dc, dr)` of `{-1, 0, 1}²` without `(0, 0)`. -/
def offsets : List (Int × Int) :=
  [(-1, -1), (0, -1), (1, -1), (-1, 0), (1, 0), (-1, 1), (0, 1), (1, 1)]

/-- The cell at offset `d` from `(c, r)`, taken modulo width and height. -/
def offsetCell (W H c r : Nat) (d : Int × Int) : Nat × Nat :=
  ((((c : Int) + d.1) % (W : Int)).toNat, (((r : Int) + d.2) % (H : Int)).toNat)

/-- The number of live neighbours of `(c, r)` in a board of dead and alive
cells: the cells at the eight offsets that are `CellAlive`. -/
def liveNeighbours {W H : Nat} (b : Board W H) (c r : Nat) : Nat :=
  offsets.countP fun d =>
    decide (b.rd (offsetCell W H c r d).1 (offsetCell W H c r d).2 = CellAlive)

/-- The board in which every cell is `CellDead`. -/
def deadBoard (W H : Nat) : Board W H :=
  Mathlib.Vector.replicate W (Mathlib.Vector.replicate H CellDead)

/-! ## Other orders of the step pass -/

/-- The board whose cell `(c, r)` holds `f c r`. -/
def Board.ofFn {W H : Nat} (f : Nat → Nat → Cell) : Board W H :=
  Mathlib.Vector.ofFn fun c => Mathlib.Vector.ofFn fun r => f c.1 r.1

/-- The loop nest with the rows outer and the columns inner (raster order). -/
def forCellsRowMajor {σ : Type} (W H : Nat) (body : σ → Nat → Nat → σ) (s : σ) : σ :=
  (List.range H).foldl (fun s r => (List.range W).foldl (fun s c => body s c r) s) s

/-- The cells of a `W` by `H` board in raster order: rows outer, columns inner. -/
def cellsRowMajor (W H : Nat) : List (Nat × Nat) :=
  (List.range H).flatMap fun r => (List.range W).map fun c => (c, r)

/-- The step pass with the body of lines 127-169 run in raster order. -/
def stepPassRowMajor {W H : Nat} (b : Board W H) : Board W H :=
  forCellsRowMajor W H stepCell b

/-- The step computed into a second buffer: the new tag of every cell is the
rule of lines 157-169 applied to the tag and the neighbour count read from the
unmodified board `b`. -/
def stepTwoBuffer {W H : Nat} (b : Board W H) : Board W H :=
  Board.ofFn fun c r => rule (b.rd c r) (numAlive b c r)

/-- The board at the point of the step pass at which the first `k` cells of the
scan have been processed. -/
def stepPrefix {W H : Nat} (k : Nat) (b : Board W H) : Board W H :=
  ((cells W H).take k).foldl (fun s p => stepCell s p.1 p.2) b

/-! ## Translations of the torus -/

/-- The index `(i - d) mod dim`. -/
def shiftIdx (dim : Nat) (d : Int) (i : Nat) : Nat := (((i : Int) - d) % (dim : Int)).toNat

/-- The board `b` translated by `(dx, dy)` on the torus: cell `(c, r)` of the
result holds what `b` holds at `((c - dx) mod W, (r - dy) mod H)`. -/
def shift {W H : Nat} (dx dy : Int) (b : Board W H) : Board W H :=
  Board.ofFn fun c r => b.rd (shiftIdx W dx c) (shiftIdx H dy r)

/-! ## The main loop (lines 80-198) -/

/-- The loop nest of lines 102-106 (and of lines 38-42): every cell is set to
`CellDead`. -/
def clearPass {W H : Nat} (b : Board W H) : Board W H :=
  forCells W H (fun b c r => b.wr c r CellDead) b

/-- The board before the main loop (lines 36-59); `mem` is the indeterminate
content of the array at its declaration. -/
def initBoard (mem : Board brdWidth brdHeight) : Board brdWidth brdHeight :=
  (clearPass mem)
    |>.wr 5 5 CellAlive
    |>.wr 5 6 CellAlive
    |>.wr 5 7 CellAlive
    |>.wr 10 10 CellAlive
    |>.wr 11 10 CellAlive
    |>.wr 12 10 CellAlive
    |>.wr 9 11 CellAlive
    |>.wr 10 11 CellAlive
    |>.wr 11 11 CellAlive
    |>.wr 1 1 CellAlive
    |>.wr 2 2 CellAlive
    |>.wr 2 3 CellAlive
    |>.wr 1 3 CellAlive
    |>.wr 0 3 CellAlive

/-- The arithmetic of the C type `double` as far as `main` uses it: the
conversion `lit` of a decimal literal of the source, the operations `+=`, `-`
and `-=`, and the comparisons `<`, `>` and `>=`.  The source does not fix it
(it is IEEE binary64 on the usual targets), so the main loop takes it as a
parameter; `D` is the type of the values of a `double`. -/
structure DoubleArith (D : Type) where
  lit : ℚ → D
  add : D → D → D
  sub : D → D → D
  lt : D → D → Bool
  gt : D → D → Bool
  ge : D → D → Bool

/-- The arithmetic of `double` taken as exact: the values are the rationals,
with their operations and order. -/
def exactArith : DoubleArith ℚ :=
  { lit := fun q => q,
    add := fun a b => a + b,
    sub := fun a b => a - b,
    lt := fun a b => decide (a < b),
    gt := fun a b => decide (a > b),
    ge := fun a b => decide (a ≥ b) }

def slowestUpdateSec {D : Type} (A : DoubleArith D) : D := A.lit 2.0
def fastestUpdateSec {D : Type} (A : DoubleArith D) : D := A.lit 0.020
def updateStepSec {D : Type} (A : DoubleArith D) : D := A.lit 0.040

/-- The variables of `main` that live across frames, for a board of `W` by `H`
cells and `double` values in `D`; the program runs at `W = brdWidth`,
`H = brdHeight`. -/
structure State (D : Type) (W H : Nat) where
  brd : Board W H
  timeBetweenUpdatesSec : D
  updateRunning : Bool
  prevUpdateTime : D

/-- The state at the first test of the loop condition (lines 29-66). -/
def initState {D : Type} (A : DoubleArith D) (mem : Board brdWidth brdHeight) :
    State D brdWidth brdHeight :=
  { brd := initBoard mem, timeBetweenUpdatesSec := A.lit 0.25, updateRunning := true,
    prevUpdateTime := A.lit 0 }

/-- What the raylib calls of one frame return: `mouseX`, `mouseY` are
`(unsigned int)mousePoint.x` and `(unsigned int)mousePoint.y`, the `key` fields
are `IsKeyPressed`, the `Down` fields are `IsMouseButtonDown`, and `now` is
`GetTime()`. -/
structure Input (D : Type) where
  mouseX : Nat
  mouseY : Nat
  keyZ : Bool
  keyX : Bool
  keyC : Bool
  keyS : Bool
  leftDown : Bool
  rightDown : Bool
  now : D

/-- The frame input with the left mouse button down, no key pressed and the
pointer at pixel `(800, 0)`, just right of the 800 by 640 grid area. -/
def outOfGridInput {D : Type} (now : D) : Input D :=
  { mouseX := 800, mouseY := 0, keyZ := false, keyX := false, keyC := false, keyS := false,
    leftDown := true, rightDown := false, now := now }

/-- The value stored in `mouseRect.x` (line 83) and `mouseRect.y` (line 84) for
the pixel coordinate `p`.  The field is a `float`; the product is stored
exactly as long as it is below `2 ^ 24`. -/
def mouseRectCoord (p : Nat) : Nat := umul (p / cellSize) cellSize

/-- The index `mouseRect.x / cellSize` of line 116 (and 117): a `float` division
converted to `unsigned int`, exact on the multiples of `cellSize` that
`mouseRectCoord` produces. -/
def editIndex (m : Nat) : Nat := m / cellSize

/-- Slow down (lines 88-91). -/
def slowDown {D : Type} (A : DoubleArith D) (t : D) : D :=
  let t := A.add t (updateStepSec A)
  if A.gt t (slowestUpdateSec A) then slowestUpdateSec A else t

/-- Speed up (lines 95-98). -/
def speedUp {D : Type} (A : DoubleArith D) (t : D) : D :=
  let t := A.sub t (updateStepSec A)
  if A.lt t (fastestUpdateSec A) then fastestUpdateSec A else t

/-- The two speed keys. -/
inductive SpeedKey where
  | KEY_Z
  | KEY_X
  deriving DecidableEq, Repr

/-- The effect on the interval of a frame in which one speed key is pressed. -/
def pressSpeedKey {D : Type} (A : DoubleArith D) (t : D) : SpeedKey → D
  | SpeedKey.KEY_Z => slowDown A t
  | SpeedKey.KEY_X => speedUp A t

/-- The interval after the speed keys of a frame (lines 86-99): `Z` is handled
first, then `X`. -/
def speedKeys {D : Type} (A : DoubleArith D) (t : D) (keyZ keyX : Bool) : D :=
  let t := if keyZ then slowDown A t else t
  if keyX then speedUp A t else t

/-- The key handling of a frame (lines 86-111). -/
def keysPhase {D : Type} {W H : Nat} (A : DoubleArith D) (s : State D W H) (i : Input D) :
    State D W H :=
  let t := speedKeys A s.timeBetweenUpdatesSec i.keyZ i.keyX
  let b := if i.keyC then clearPass s.brd else s.brd
  let run := if i.keyS then !s.updateRunning else s.updateRunning
  { brd := b, timeBetweenUpdatesSec := t, updateRunning := run,
    prevUpdateTime := s.prevUpdateTime }

/-- The store `brd[c][r] = v` of line 119 with indices that were not checked:
outside the array it has no defined result. -/
def storeCell {W H : Nat} (b : Board W H) (c r : Nat) (v : Cell) : Option (Board W H) :=
  if c < W ∧ r < H then some (b.wr c r v) else none

/-- The mouse handling of a frame (lines 113-120): the state and the value of
`mouseButtonPressed`. -/
def editPhase {D : Type} {W H : Nat} (s : State D W H) (i : Input D) :
    Option (State D W H × Bool) :=
  if i.leftDown || i.rightDown then
    let c := editIndex (mouseRectCoord i.mouseX)
    let r := editIndex (mouseRectCoord i.mouseY)
    (storeCell s.brd c r (if i.leftDown then CellAlive else CellDead)).map
      fun b => ({ s with brd := b }, true)
  else
    some (s, false)

/-- The test of line 123. -/
def tickDue {D : Type} {W H : Nat} (A : DoubleArith D) (s : State D W H)
    (mouseButtonPressed : Bool) (nowTime : D) : Bool :=
  s.updateRunning && !mouseButtonPressed &&
    A.ge (A.sub nowTime s.prevUpdateTime) s.timeBetweenUpdatesSec

/-- The timed update of a frame (lines 122-172): the state and whether the step
pass was executed. -/
def tickPhase {D : Type} {W H : Nat} (A : DoubleArith D) (s : State D W H)
    (mouseButtonPressed : Bool) (nowTime : D) : State D W H × Bool :=
  if tickDue A s mouseButtonPressed nowTime then
    ({ s with prevUpdateTime := nowTime, brd := stepPass s.brd }, true)
  else
    (s, false)

/-- What a frame leaves behind: the state, whether the step pass was executed,
the cell rectangles drawn, and the pointer outline if it was drawn (line 192). -/
structure FrameResult (D : Type) (W H : Nat) where
  state : State D W H
  stepped : Bool
  drawn : List (Nat × Nat)
  outline : Option (Nat × Nat)

/-- One iteration of the main loop (lines 81-197). -/
def frame {D : Type} {W H : Nat} (A : DoubleArith D) (s : State D W H) (i : Input D) :
    Option (FrameResult D W H) :=
  let mouseRectX := mouseRectCoord i.mouseX
  let mouseRectY := mouseRectCoord i.mouseY
  (editPhase (keysPhase A s i) i).map fun p =>
    let t := tickPhase A p.1 p.2 i.now
    let d := drawPass t.1.brd
    { state := { t.1 with brd := d.brd },
      stepped := t.2,
      drawn := d.drawn,
      outline := if mouseRectX < screenWidth ∧ mouseRectY < screenHeight
        then some (mouseRectX, mouseRectY) else none }

/-- The state after a sequence of frames, when every one of them has a defined
result. -/
def runFrames {D : Type} {W H : Nat} (A : DoubleArith D) (s : State D W H) :
    List (Input D) → Option (State D W H)
  | [] => some s
  | i :: is => (frame A s i).bind fun out => runFrames A out.state is

/-- The results of the frames of a run, in order, when every one of them has a
defined result. -/
def runResults {D : Type} {W H : Nat} (A : DoubleArith D) (s : State D W H) :
    List (Input D) → Option (List (FrameResult D W H))
  | [] => some []
  | i :: is =>
    (frame A s i).bind fun out => (runResults A out.state is).map fun outs => out :: outs

/-! # Theorems -/

/-! ## Reads and stores -/

theorem rd_wr {W H : Nat} (b : Board W H) (c r : Nat) (v : Cell) (c' r' : Nat) :
    (b.wr c r v).rd c' r' = if c' = c ∧ r' = r ∧ c < W ∧ r < H then v else b.rd c' r' := by
  by_cases h : c < W ∧ r < H
  · by_cases h' : c' < W ∧ r' < H
    · simp only [Board.wr, Board.rd, dif_pos h, dif_pos h']
      by_cases hc : c' = c
      · subst hc
        rw [Mathlib.Vector.get_set_same]
        by_cases hr : r' = r
        · subst hr
          simp [Mathlib.Vector.get_set_same, h.1, h.2]
        · have hne : (⟨r, h.2⟩ : Fin H) ≠ ⟨r', h'.2⟩ := by
            intro he
            exact hr (Fin.mk.inj he).symm
          rw [Mathlib.Vector.get_set_of_ne hne]
          simp [hr]
      · have hne : (⟨c, h.1⟩ : Fin W) ≠ ⟨c', h'.1⟩ := by
          intro he
          exact hc (Fin.mk.inj he).symm
        rw [Mathlib.Vector.get_set_of_ne hne]
        simp [hc]
    · have hne : ¬ (c' = c ∧ r' = r ∧ c < W ∧ r < H) := by
        rintro ⟨rfl, rfl, hh⟩
        exact h' hh
      simp only [Board.rd, dif_neg h', if_neg hne]
  · have hne : ¬ (c' = c ∧ r' = r ∧ c < W ∧ r < H) := fun hh => h hh.2.2
    simp only [Board.wr, dif_neg h, if_neg hne]

theorem rd_outside {W H : Nat} (b : Board W H) (c r : Nat) (h : ¬ (c < W ∧ r < H)) :
    b.rd c r = CellDead := by
  simp only [Board.rd, dif_neg h]

theorem board_ext {W H : Nat} (b b' : Board W H)
    (h : ∀ c < W, ∀ r < H, b.rd c r = b'.rd c r) : b = b' := by
  apply Mathlib.Vector.ext
  intro i
  apply Mathlib.Vector.ext
  intro j
  have hij := h i i.2 j j.2
  simpa [Board.rd, i.2, j.2] using hij

/-! ## Neighbour indices -/

theorem prevIdx_eq (dim i : Nat) (hi : i < dim) (hd : dim < 2 ^ 31) :
    prevIdx dim (i : Int) = if i = 0 then dim - 1 else i - 1 := by
  unfold prevIdx usub toUnsigned uintRange
  norm_num at hd ⊢
  split_ifs <;> omega

theorem nextIdx_eq (dim i : Nat) (hi : i < dim) (hd : dim < 2 ^ 31) :
    nextIdx dim (i : Int) = if i + 1 = dim then 0 else i + 1 := by
  unfold nextIdx usub toUnsigned uintRange
  norm_num at hd ⊢
  split_ifs <;> omega

/-! ## The loop nest as a fold over the cells in scan order -/

theorem mem_cells (W H c r : Nat) : (c, r) ∈ cells W H ↔ c < W ∧ r < H := by
  simp [cells, List.mem_flatMap, List.mem_map, List.mem_range]

theorem foldl_flatMap_eq {α β σ : Type} (f : σ → β → σ) (g : α → List β) (l : List α) (s : σ) :
    (l.flatMap g).foldl f s = l.foldl (fun s a => (g a).foldl f s) s := by
  induction l generalizing s with
  | nil => rfl
  | cons a l ih => simp [List.flatMap_cons, List.foldl_append, ih]

theorem forCells_eq_foldl {σ : Type} (W H : Nat) (body : σ → Nat → Nat → σ) (s : σ) :
    forCells W H body s = (cells W H).foldl (fun s p => body s p.1 p.2) s := by
  unfold forCells cells
  rw [foldl_flatMap_eq]
  simp only [List.foldl_map]

/-! ## The step pass, cell by cell -/

theorem rule_wasAlive (t : Cell) (n : Nat) :
    (rule t n = CellAlive ∨ rule t n = CellAliveDeadNext) ↔
      (t = CellAlive ∨ t = CellAliveDeadNext) := by
  unfold rule
  cases t <;> split_ifs <;> simp_all

theorem rule_rule (t : Cell) (n : Nat) : rule (rule t n) n = rule t n := by
  unfold rule
  cases t <;> split_ifs <;> simp_all

theorem rd_stepCell {W H : Nat} (b : Board W H) (c r : Nat) (hc : c < W) (hr : r < H)
    (c' r' : Nat) :
    (stepCell b c r).rd c' r' =
      if c' = c ∧ r' = r then rule (b.rd c r) (numAlive b c r) else b.rd c' r' := by
  unfold stepCell rule
  simp only []
  split_ifs <;> simp_all [rd_wr]

theorem numAlive_congr {W H : Nat} (b b' : Board W H)
    (h : ∀ c r, aliveInc b' c r = aliveInc b c r) (c r : Nat) :
    numAlive b' c r = numAlive b c r := by
  simp only [numAlive, h]

theorem foldl_stepCell {W H : Nat} (b : Board W H) (L : List (Nat × Nat))
    (hL : ∀ p ∈ L, p.1 < W ∧ p.2 < H) (c r : Nat) :
    (L.foldl (fun s p => stepCell s p.1 p.2) b).rd c r =
      if (c, r) ∈ L then rule (b.rd c r) (numAlive b c r) else b.rd c r := by
  induction L using List.reverseRecOn generalizing c r with
  | nil => simp
  | append_singleton L p ih =>
    have hL' : ∀ q ∈ L, q.1 < W ∧ q.2 < H := fun q hq => hL q (by simp [hq])
    have hp : p.1 < W ∧ p.2 < H := hL p (by simp)
    have ih' := fun c r => ih hL' c r
    have hinc : ∀ c r, aliveInc (L.foldl (fun s p => stepCell s p.1 p.2) b) c r
        = aliveInc b c r := by
      intro c r
      unfold aliveInc
      rw [ih' c r]
      split_ifs with hm h1 h2 h2
      · rfl
      · exact absurd ((rule_wasAlive _ _).1 h1) h2
      · exact absurd ((rule_wasAlive _ _).2 h2) h1
      · rfl
      · rfl
      · rfl
    rw [List.foldl_append, List.foldl_cons, List.foldl_nil, rd_stepCell _ _ _ hp.1 hp.2,
      numAlive_congr _ _ hinc, ih' p.1 p.2, ih' c r]
    by_cases hcr : c = p.1 ∧ r = p.2
    · obtain ⟨rfl, rfl⟩ := hcr
      by_cases hm : (p.1, p.2) ∈ L
      · simp [hm, rule_rule]
      · simp [hm]
    · have hne : (c, r) ≠ p := by
        intro he
        exact hcr ⟨by rw [← he], by rw [← he]⟩
      simp [hcr, hne]

theorem rd_stepPass {W H : Nat} (b : Board W H) (c r : Nat) (hc : c < W) (hr : r < H) :
    (stepPass b).rd c r = rule (b.rd c r) (numAlive b c r) := by
  unfold stepPass
  rw [forCells_eq_foldl, foldl_stepCell b _ (fun p hp => (mem_cells W H p.1 p.2).1 hp),
    if_pos ((mem_cells W H c r).2 ⟨hc, hr⟩)]

/-! ## The collapse pass, cell by cell -/

theorem collapseTag_live (t : Cell) :
    (collapseTag t = CellAlive ∨ collapseTag t = CellDeadAliveNext) ↔
      (t = CellAlive ∨ t = CellDeadAliveNext) := by
  unfold collapseTag
  cases t <;> simp

theorem collapseTag_collapseTag (t : Cell) : collapseTag (collapseTag t) = collapseTag t := by
  unfold collapseTag
  cases t <;> simp

theorem rd_drawCell {W H : Nat} (s : DrawState W H) (c r : Nat) (hc : c < W) (hr : r < H)
    (c' r' : Nat) :
    (drawCell s c r).brd.rd c' r' =
      if c' = c ∧ r' = r then collapseTag (s.brd.rd c r) else s.brd.rd c' r' := by
  unfold drawCell collapseTag
  split_ifs <;> simp_all [rd_wr]

theorem drawn_drawCell {W H : Nat} (s : DrawState W H) (c r : Nat) :
    (drawCell s c r).drawn = s.drawn ++ ([(c, r)].filter (drawTest s.brd)).map cellRect := by
  unfold drawCell drawTest
  split_ifs with h <;> simp [h]

theorem foldl_drawCell {W H : Nat} (s : DrawState W H) (L : List (Nat × Nat))
    (hL : ∀ p ∈ L, p.1 < W ∧ p.2 < H) :
    (∀ c r, (L.foldl (fun s p => drawCell s p.1 p.2) s).brd.rd c r =
        if (c, r) ∈ L then collapseTag (s.brd.rd c r) else s.brd.rd c r) ∧
      (L.foldl (fun s p => drawCell s p.1 p.2) s).drawn =
        s.drawn ++ (L.filter (drawTest s.brd)).map cellRect := by
  induction L using List.reverseRecOn with
  | nil => simp
  | append_singleton L p ih =>
    have hL' : ∀ q ∈ L, q.1 < W ∧ q.2 < H := fun q hq => hL q (by simp [hq])
    have hp : p.1 < W ∧ p.2 < H := hL p (by simp)
    obtain ⟨ihb, ihd⟩ := ih hL'
    have htest : drawTest (L.foldl (fun s p => drawCell s p.1 p.2) s).brd p
        = drawTest s.brd p := by
      unfold drawTest
      rw [ihb p.1 p.2]
      by_cases hm : (p.1, p.2) ∈ L
      · simp only [if_pos hm, collapseTag_live]
      · simp only [if_neg hm]
    constructor
    · intro c r
      rw [List.foldl_append, List.foldl_cons, List.foldl_nil, rd_drawCell _ _ _ hp.1 hp.2,
        ihb p.1 p.2, ihb c r]
      by_cases hcr : c = p.1 ∧ r = p.2
      · obtain ⟨rfl, rfl⟩ := hcr
        by_cases hm : (p.1, p.2) ∈ L
        · simp [hm, collapseTag_collapseTag]
        · simp [hm]
      · have hne : (c, r) ≠ p := by
          intro he
          exact hcr ⟨by rw [← he], by rw [← he]⟩
        simp [hcr, hne]
    · rw [List.foldl_append, List.foldl_cons, List.foldl_nil, drawn_drawCell, ihd,
        List.filter_append, List.map_append, List.append_assoc]
      simp only [List.filter_cons, List.filter_nil, htest]

theorem rd_collapsePass {W H : Nat} (b : Board W H) (c r : Nat) (hc : c < W) (hr : r < H) :
    (collapsePass b).rd c r = collapseTag (b.rd c r) := by
  unfold collapsePass drawPass
  rw [forCells_eq_foldl,
    (foldl_drawCell _ _ (fun p hp => (mem_cells W H p.1 p.2).1 hp)).1,
    if_pos ((mem_cells W H c r).2 ⟨hc, hr⟩)]

theorem drawn_drawPass {W H : Nat} (b : Board W H) :
    (drawPass b).drawn = ((cells W H).filter (drawTest b)).map cellRect := by
  unfold drawPass
  rw [forCells_eq_foldl,
    (foldl_drawCell _ _ (fun p hp => (mem_cells W H p.1 p.2).1 hp)).2]
  simp

theorem rd_generation {W H : Nat} (b : Board W H) (c r : Nat) (hc : c < W) (hr : r < H) :
    (generation b).rd c r = collapseTag (rule (b.rd c r) (numAlive b c r)) := by
  unfold generation
  rw [rd_collapsePass _ _ _ hc hr, rd_stepPass _ _ _ hc hr]


/-! ## Neighbour indices of a cell inside the board -/

theorem cp_eq (W c : Nat) (hc : c < W) (hW : W < 2 ^ 31) :
    cp W c = if c = 0 then W - 1 else c - 1 := prevIdx_eq W c hc hW

theorem cn_eq (W c : Nat) (hc : c < W) (hW : W < 2 ^ 31) :
    cn W c = if c + 1 = W then 0 else c + 1 := nextIdx_eq W c hc hW

theorem rp_eq (H r : Nat) (hr : r < H) (hH : H < 2 ^ 31) :
    rp H r = if r = 0 then H - 1 else r - 1 := prevIdx_eq H r hr hH

theorem rn_eq (H r : Nat) (hr : r < H) (hH : H < 2 ^ 31) :
    rn H r = if r + 1 = H then 0 else r + 1 := nextIdx_eq H r hr hH

theorem prev_mod (dim i : Nat) (hi : i < dim) :
    (if i = 0 then dim - 1 else i - 1) = (i + dim - 1) % dim := by
  split_ifs with h
  · subst h
    rw [Nat.zero_add, Nat.mod_eq_of_lt (by omega)]
  · have h1 : i + dim - 1 = (i - 1) + dim := by omega
    rw [h1, Nat.add_mod_right, Nat.mod_eq_of_lt (by omega)]

theorem next_mod (dim i : Nat) (hi : i < dim) :
    (if i + 1 = dim then 0 else i + 1) = (i + 1) % dim := by
  split_ifs with h
  · rw [h, Nat.mod_self]
  · rw [Nat.mod_eq_of_lt (by omega)]

theorem numAlive_eq_countP {W H : Nat} (b : Board W H) (c r : Nat) :
    numAlive b c r = (neighbours W H c r).countP (wasAliveAt b) := by
  simp only [numAlive, neighbours, aliveInc, wasAliveAt, List.countP_cons, List.countP_nil,
    decide_eq_true_eq]
  omega

/-- C2: for a cell inside the board the indices computed at lines 128-131, with
`c`, `r` of type `int` and the dimensions of type `unsigned int`, are the
neighbouring indices modulo the dimensions and lie inside the board; the
neighbour count is the count over the eight cells so addressed, and those of
cell `(0, 0)` include `(W-1, H-1)`, `(W-1, 0)` and `(0, H-1)`. -/
theorem neighbour_indices_wrap (W H c r : Nat) (hW : W < 2 ^ 31) (hH : H < 2 ^ 31)
    (hc : c < W) (hr : r < H) :
    (cp W c = (c + W - 1) % W ∧ cn W c = (c + 1) % W ∧
      rp H r = (r + H - 1) % H ∧ rn H r = (r + 1) % H) ∧
    (cp W c < W ∧ cn W c < W ∧ rp H r < H ∧ rn H r < H) ∧
    (∀ b : Board W H, numAlive b c r = (neighbours W H c r).countP (wasAliveAt b)) ∧
    ((W - 1, H - 1) ∈ neighbours W H 0 0 ∧ (W - 1, 0) ∈ neighbours W H 0 0 ∧
      (0, H - 1) ∈ neighbours W H 0 0) := by
  have hW0 : 0 < W := by omega
  have hH0 : 0 < H := by omega
  refine ⟨⟨?_, ?_, ?_, ?_⟩, ⟨?_, ?_, ?_, ?_⟩, fun b => numAlive_eq_countP b c r, ?_, ?_, ?_⟩
  · rw [cp_eq W c hc hW, prev_mod W c hc]
  · rw [cn_eq W c hc hW, next_mod W c hc]
  · rw [rp_eq H r hr hH, prev_mod H r hr]
  · rw [rn_eq H r hr hH, next_mod H r hr]
  · rw [cp_eq W c hc hW]; split_ifs <;> omega
  · rw [cn_eq W c hc hW]; split_ifs <;> omega
  · rw [rp_eq H r hr hH]; split_ifs <;> omega
  · rw [rn_eq H r hr hH]; split_ifs <;> omega
  · simp [neighbours, cp_eq W 0 hW0 hW, rp_eq H 0 hH0 hH]
  · simp [neighbours, cp_eq W 0 hW0 hW]
  · simp [neighbours, rp_eq H 0 hH0 hH]

theorem neighbour_indices_wrap_witness :
    (cp brdWidth 0 = (0 + brdWidth - 1) % brdWidth ∧ cn brdWidth 0 = (0 + 1) % brdWidth ∧
      rp brdHeight 63 = (63 + brdHeight - 1) % brdHeight ∧
      rn brdHeight 63 = (63 + 1) % brdHeight) ∧
    (cp brdWidth 0 < brdWidth ∧ cn brdWidth 0 < brdWidth ∧ rp brdHeight 63 < brdHeight ∧
      rn brdHeight 63 < brdHeight) ∧
    (∀ b : Board brdWidth brdHeight,
      numAlive b 0 63 = (neighbours brdWidth brdHeight 0 63).countP (wasAliveAt b)) ∧
    ((brdWidth - 1, brdHeight - 1) ∈ neighbours brdWidth brdHeight 0 0 ∧
      (brdWidth - 1, 0) ∈ neighbours brdWidth brdHeight 0 0 ∧
      (0, brdHeight - 1) ∈ neighbours brdWidth brdHeight 0 0) :=
  neighbour_indices_wrap brdWidth brdHeight 0 63 (by decide) (by decide) (by decide) (by decide)


/-! ## One generation on a board of dead and alive cells -/

theorem int_prev (dim i : Nat) (hi : i < dim) :
    (((i : Int) + -1) % (dim : Int)).toNat = if i = 0 then dim - 1 else i - 1 := by
  split_ifs with h
  · subst h
    have h1 : ((0 : Nat) : Int) + -1 = ((dim : Int) - 1) + (-1) * (dim : Int) := by
      push_cast; ring
    rw [h1, Int.add_mul_emod_self, Int.emod_eq_of_lt (by omega) (by omega)]
    omega
  · rw [Int.emod_eq_of_lt (by omega) (by omega)]
    omega

theorem int_next (dim i : Nat) (hi : i < dim) :
    (((i : Int) + 1) % (dim : Int)).toNat = if i + 1 = dim then 0 else i + 1 := by
  split_ifs with h
  · have h1 : (i : Int) + 1 = (dim : Int) := by omega
    rw [h1, Int.emod_self]
    rfl
  · rw [Int.emod_eq_of_lt (by omega) (by omega)]
    omega

theorem int_same (dim i : Nat) (hi : i < dim) :
    (((i : Int) + 0) % (dim : Int)).toNat = i := by
  rw [Int.add_zero, Int.emod_eq_of_lt (by omega) (by omega)]
  omega

theorem two_state_everywhere {W H : Nat} (b : Board W H)
    (h2 : ∀ c < W, ∀ r < H, b.rd c r = CellDead ∨ b.rd c r = CellAlive) (c r : Nat) :
    b.rd c r = CellDead ∨ b.rd c r = CellAlive := by
  by_cases h : c < W ∧ r < H
  · exact h2 c h.1 r h.2
  · exact Or.inl (rd_outside b c r h)

theorem aliveInc_two_state {W H : Nat} (b : Board W H)
    (h2 : ∀ c < W, ∀ r < H, b.rd c r = CellDead ∨ b.rd c r = CellAlive) (c r : Nat) :
    aliveInc b c r = if b.rd c r = CellAlive then 1 else 0 := by
  unfold aliveInc
  rcases two_state_everywhere b h2 c r with h | h <;> simp [h]

theorem numAlive_eq_liveNeighbours {W H : Nat} (hW : W < 2 ^ 31) (hH : H < 2 ^ 31)
    (b : Board W H) (h2 : ∀ c < W, ∀ r < H, b.rd c r = CellDead ∨ b.rd c r = CellAlive)
    (c r : Nat) (hc : c < W) (hr : r < H) :
    numAlive b c r = liveNeighbours b c r := by
  simp only [liveNeighbours, offsets, offsetCell, List.countP_cons, List.countP_nil,
    int_prev W c hc, int_next W c hc, int_same W c hc,
    int_prev H r hr, int_next H r hr, int_same H r hr,
    ← cp_eq W c hc hW, ← cn_eq W c hc hW, ← rp_eq H r hr hH, ← rn_eq H r hr hH,
    decide_eq_true_eq, numAlive, aliveInc_two_state b h2]
  omega

/-- C1: on a board of dead and alive cells, the step pass followed by the
collapse pass is one generation of B3/S23 on the torus: a cell is alive
afterwards iff it was alive with 2 or 3 live neighbours or dead with exactly 3,
and is dead otherwise, the live neighbours being counted in the board before
the step at the eight offsets modulo width and height. -/
theorem generation_is_B3S23 {W H : Nat} (hW : W < 2 ^ 31) (hH : H < 2 ^ 31) (b : Board W H)
    (h2 : ∀ c < W, ∀ r < H, b.rd c r = CellDead ∨ b.rd c r = CellAlive)
    (c r : Nat) (hc : c < W) (hr : r < H) :
    ((generation b).rd c r = CellAlive ↔
      (b.rd c r = CellAlive ∧ (liveNeighbours b c r = 2 ∨ liveNeighbours b c r = 3)) ∨
      (b.rd c r = CellDead ∧ liveNeighbours b c r = 3)) ∧
    ((generation b).rd c r ≠ CellAlive → (generation b).rd c r = CellDead) := by
  rw [rd_generation b c r hc hr, numAlive_eq_liveNeighbours hW hH b h2 c r hc hr]
  generalize liveNeighbours b c r = n
  rcases h2 c hc r hr with h | h <;> rw [h] <;> unfold rule collapseTag <;>
    constructor <;> split_ifs <;> simp_all <;> omega

theorem foldl_wr_dead {W H : Nat} (b : Board W H) (L : List (Nat × Nat))
    (hL : ∀ p ∈ L, p.1 < W ∧ p.2 < H) (c r : Nat) :
    (L.foldl (fun s p => Board.wr s p.1 p.2 CellDead) b).rd c r =
      if (c, r) ∈ L then CellDead else b.rd c r := by
  induction L using List.reverseRecOn generalizing c r with
  | nil => simp
  | append_singleton L p ih =>
    have hL' : ∀ q ∈ L, q.1 < W ∧ q.2 < H := fun q hq => hL q (by simp [hq])
    have hp : p.1 < W ∧ p.2 < H := hL p (by simp)
    rw [List.foldl_append, List.foldl_cons, List.foldl_nil, rd_wr, ih hL' c r]
    by_cases hcr : c = p.1 ∧ r = p.2
    · obtain ⟨rfl, rfl⟩ := hcr
      simp [hp.1, hp.2]
    · have hne : (c, r) ≠ p := by
        intro he
        exact hcr ⟨by rw [← he], by rw [← he]⟩
      have hcr' : ¬ (c = p.1 ∧ r = p.2 ∧ p.1 < W ∧ p.2 < H) := fun hh => hcr ⟨hh.1, hh.2.1⟩
      simp [hcr', hne]

theorem rd_clearPass {W H : Nat} (b : Board W H) (c r : Nat) :
    (clearPass b).rd c r = CellDead := by
  by_cases h : c < W ∧ r < H
  · unfold clearPass
    rw [forCells_eq_foldl, foldl_wr_dead b _ (fun p hp => (mem_cells W H p.1 p.2).1 hp),
      if_pos ((mem_cells W H c r).2 h)]
  · exact rd_outside _ c r h

theorem wr_two_state {W H : Nat} (b : Board W H)
    (h : ∀ c r, b.rd c r = CellDead ∨ b.rd c r = CellAlive) (c0 r0 : Nat) (v : Cell)
    (hv : v = CellDead ∨ v = CellAlive) (c r : Nat) :
    (b.wr c0 r0 v).rd c r = CellDead ∨ (b.wr c0 r0 v).rd c r = CellAlive := by
  rw [rd_wr]
  split_ifs
  · exact hv
  · exact h c r

theorem initBoard_two_state (mem : Board brdWidth brdHeight) (c r : Nat) :
    (initBoard mem).rd c r = CellDead ∨ (initBoard mem).rd c r = CellAlive := by
  unfold initBoard
  revert c r
  iterate 14 refine wr_two_state _ ?_ _ _ _ (Or.inr rfl)
  intro c r
  exact Or.inl (rd_clearPass mem c r)

theorem generation_is_B3S23_witness :
    ((generation (initBoard (deadBoard brdWidth brdHeight))).rd 5 6 = CellAlive ↔
      ((initBoard (deadBoard brdWidth brdHeight)).rd 5 6 = CellAlive ∧
        (liveNeighbours (initBoard (deadBoard brdWidth brdHeight)) 5 6 = 2 ∨
          liveNeighbours (initBoard (deadBoard brdWidth brdHeight)) 5 6 = 3)) ∨
      ((initBoard (deadBoard brdWidth brdHeight)).rd 5 6 = CellDead ∧
        liveNeighbours (initBoard (deadBoard brdWidth brdHeight)) 5 6 = 3)) ∧
    ((generation (initBoard (deadBoard brdWidth brdHeight))).rd 5 6 ≠ CellAlive →
      (generation (initBoard (deadBoard brdWidth brdHeight))).rd 5 6 = CellDead) :=
  generation_is_B3S23 (by decide) (by decide) (initBoard (deadBoard brdWidth brdHeight))
    (fun c _ r _ => initBoard_two_state _ c r) 5 6 (by decide) (by decide)


/-! ## The cell edit -/

theorem editIndex_mouseRectCoord (p : Nat) (hp : p < 2 ^ 32) :
    editIndex (mouseRectCoord p) = p / cellSize := by
  unfold editIndex mouseRectCoord umul uintRange cellSize
  norm_num at hp ⊢
  omega

/-- C3 (failing input): with the pointer at pixel `(800, 0)`, outside the grid
area, the edit code computes column 80, which is not below `brdWidth`; with a
mouse button down the store of line 119 is outside the array and the frame has
no defined result, whatever the arithmetic of `double`. -/
theorem edit_index_not_clamped :
    editIndex (mouseRectCoord 800) = 80 ∧ ¬ editIndex (mouseRectCoord 800) < brdWidth ∧
    ∀ (D : Type) (A : DoubleArith D) (s : State D brdWidth brdHeight) (now : D),
      frame A s { mouseX := 800, mouseY := 0, keyZ := false, keyX := false, keyC := false,
                  keyS := false, leftDown := true, rightDown := false, now := now } = none := by
  have h1 : editIndex (mouseRectCoord 800) = 80 := by
    rw [editIndex_mouseRectCoord 800 (by norm_num)]
    rfl
  refine ⟨h1, by rw [h1]; decide, ?_⟩
  intro D A s now
  simp only [frame, editPhase, storeCell, h1, Bool.or_false, if_true, Option.map_eq_none']
  have h2 : ¬ (80 < brdWidth ∧ editIndex (mouseRectCoord 0) < brdHeight) :=
    fun hh => absurd hh.1 (by decide)
  simp [h2]

/-! ## The frame, phase by phase -/

theorem editPhase_no_button {D : Type} {W H : Nat} (s : State D W H) (i : Input D)
    (hl : i.leftDown = false) (hr : i.rightDown = false) : editPhase s i = some (s, false) := by
  simp [editPhase, hl, hr]

theorem editPhase_button {D : Type} {W H : Nat} (s : State D W H) (i : Input D)
    (hb : (i.leftDown || i.rightDown) = true) :
    editPhase s i =
      (storeCell s.brd (editIndex (mouseRectCoord i.mouseX)) (editIndex (mouseRectCoord i.mouseY))
        (if i.leftDown then CellAlive else CellDead)).map
        fun b => ({ s with brd := b }, true) := by
  simp only [editPhase, hb, if_true]

theorem editPhase_flag {D : Type} {W H : Nat} (s s2 : State D W H) (i : Input D) (m : Bool)
    (h : editPhase s i = some (s2, m)) :
    m = (i.leftDown || i.rightDown) ∧ s2.timeBetweenUpdatesSec = s.timeBetweenUpdatesSec ∧
      s2.updateRunning = s.updateRunning ∧ s2.prevUpdateTime = s.prevUpdateTime := by
  by_cases hb : (i.leftDown || i.rightDown) = true
  · rw [editPhase_button s i hb] at h
    simp only [Option.map_eq_some'] at h
    obtain ⟨b, _, hb2⟩ := h
    have h1 := (Prod.mk.inj hb2).1
    have h2 := (Prod.mk.inj hb2).2
    subst h1
    subst h2
    simp [hb]
  · have hl : i.leftDown = false := by
      cases hh : i.leftDown <;> simp_all
    have hr : i.rightDown = false := by
      cases hh : i.rightDown <;> simp_all
    rw [editPhase_no_button s i hl hr] at h
    have h3 := Option.some.inj h
    have h1 := (Prod.mk.inj h3).1
    have h2 := (Prod.mk.inj h3).2
    subst h1
    subst h2
    simp [hl, hr]

theorem editPhase_isSome {D : Type} {W H : Nat} (s : State D W H) (i : Input D) :
    (editPhase s i).isSome = true ↔
      ((i.leftDown || i.rightDown) = true →
        editIndex (mouseRectCoord i.mouseX) < W ∧
          editIndex (mouseRectCoord i.mouseY) < H) := by
  by_cases hb : (i.leftDown || i.rightDown) = true
  · rw [editPhase_button s i hb]
    by_cases h : editIndex (mouseRectCoord i.mouseX) < W ∧
        editIndex (mouseRectCoord i.mouseY) < H
    · simp [storeCell, hb, h]
    · have h' : ¬ ((i.leftDown || i.rightDown) = true →
          editIndex (mouseRectCoord i.mouseX) < W ∧
            editIndex (mouseRectCoord i.mouseY) < H) := fun hh => h (hh hb)
      simp only [storeCell, if_neg h, Option.map_none', Option.isSome_none, h']
      simp
  · have hl : i.leftDown = false := by
      cases hh : i.leftDown <;> simp_all
    have hr : i.rightDown = false := by
      cases hh : i.rightDown <;> simp_all
    rw [editPhase_no_button s i hl hr]
    simp [hl, hr]

theorem tickPhase_due {D : Type} {W H : Nat} (A : DoubleArith D) (s : State D W H) (m : Bool)
    (nowTime : D) (h : tickDue A s m nowTime = true) :
    tickPhase A s m nowTime =
      ({ s with prevUpdateTime := nowTime, brd := stepPass s.brd }, true) := by
  unfold tickPhase
  rw [if_pos h]

theorem tickPhase_not_due {D : Type} {W H : Nat} (A : DoubleArith D) (s : State D W H)
    (m : Bool) (nowTime : D) (h : ¬ tickDue A s m nowTime = true) :
    tickPhase A s m nowTime = (s, false) := by
  unfold tickPhase
  rw [if_neg h]

theorem tickDue_iff {D : Type} {W H : Nat} (A : DoubleArith D) (s : State D W H) (m : Bool)
    (nowTime : D) :
    tickDue A s m nowTime = true ↔
      s.updateRunning = true ∧ m = false ∧
        A.ge (A.sub nowTime s.prevUpdateTime) s.timeBetweenUpdatesSec = true := by
  simp only [tickDue, Bool.and_eq_true, Bool.not_eq_true', and_assoc]

theorem frame_eq {D : Type} {W H : Nat} (A : DoubleArith D) (s : State D W H) (i : Input D) :
    frame A s i = (editPhase (keysPhase A s i) i).map fun p =>
      { state := { (tickPhase A p.1 p.2 i.now).1 with
                   brd := (drawPass (tickPhase A p.1 p.2 i.now).1.brd).brd },
        stepped := (tickPhase A p.1 p.2 i.now).2,
        drawn := (drawPass (tickPhase A p.1 p.2 i.now).1.brd).drawn,
        outline :=
          if mouseRectCoord i.mouseX < screenWidth ∧ mouseRectCoord i.mouseY < screenHeight
          then some (mouseRectCoord i.mouseX, mouseRectCoord i.mouseY) else none } := by
  unfold frame
  exact rfl

theorem frame_isSome {D : Type} {W H : Nat} (A : DoubleArith D) (s : State D W H)
    (i : Input D) :
    (frame A s i).isSome = true ↔
      ((i.leftDown || i.rightDown) = true →
        editIndex (mouseRectCoord i.mouseX) < W ∧
          editIndex (mouseRectCoord i.mouseY) < H) := by
  rw [frame_eq, Option.isSome_map', editPhase_isSome]

theorem frame_outOfGrid {D : Type} (A : DoubleArith D) (s : State D brdWidth brdHeight)
    (now : D) : frame A s (outOfGridInput now) = none := by
  have h1 : editIndex (mouseRectCoord 800) = 80 := by
    rw [editIndex_mouseRectCoord 800 (by norm_num)]
    rfl
  have hns : ¬ (frame A s (outOfGridInput now)).isSome = true := by
    rw [frame_isSome]
    intro hh
    have h2 := (hh rfl).1
    have h3 : editIndex (mouseRectCoord 800) < brdWidth := h2
    rw [h1] at h3
    exact absurd h3 (by decide)
  cases hf : frame A s (outOfGridInput now) with
  | none => rfl
  | some out =>
    rw [hf] at hns
    exact absurd rfl hns

theorem frame_result {D : Type} {W H : Nat} (A : DoubleArith D) (s : State D W H)
    (i : Input D) (out : FrameResult D W H) (hout : frame A s i = some out) :
    ∃ s2 m, editPhase (keysPhase A s i) i = some (s2, m) ∧
      out.stepped = tickDue A s2 m i.now ∧
      out.state.brd = collapsePass (if tickDue A s2 m i.now then stepPass s2.brd else s2.brd) ∧
      out.drawn =
        (drawPass (if tickDue A s2 m i.now then stepPass s2.brd else s2.brd)).drawn ∧
      out.state.timeBetweenUpdatesSec = s2.timeBetweenUpdatesSec ∧
      out.state.updateRunning = s2.updateRunning ∧
      out.state.prevUpdateTime =
        (if tickDue A s2 m i.now then i.now else s2.prevUpdateTime) := by
  rw [frame_eq, Option.map_eq_some'] at hout
  obtain ⟨⟨s2, m⟩, he, hout⟩ := hout
  refine ⟨s2, m, he, ?_⟩
  by_cases hdue : tickDue A s2 m i.now = true
  · rw [tickPhase_due _ _ _ _ hdue] at hout
    subst hout
    rw [hdue, if_pos rfl, if_pos rfl, collapsePass]
    exact ⟨rfl, rfl, rfl, rfl, rfl, rfl⟩
  · rw [tickPhase_not_due _ _ _ _ hdue] at hout
    subst hout
    have hf : tickDue A s2 m i.now = false := by
      cases h : tickDue A s2 m i.now
      · rfl
      · exact absurd h hdue
    rw [hf, if_neg Bool.false_ne_true, if_neg Bool.false_ne_true, collapsePass]
    exact ⟨rfl, rfl, rfl, rfl, rfl, rfl⟩

/-- C6 (code defect shared with C3): in the program, a frame with the left
button down and the pointer at pixel `(800, 0)` stores outside the board and
has no defined result, so nothing holds of the step pass or of
`prevUpdateTime` after it.  A frame has a defined result exactly when its cell
edit, if any, falls inside the board; in every such frame, and for every
arithmetic of `double`, the step pass is executed iff the running flag after
the start/stop key is true, no mouse button is down and the test
`now - prevUpdateTime >= timeBetweenUpdatesSec` of line 123 is true for the
interval left by the speed keys; when it is executed `prevUpdateTime` becomes
`now` and the board is the collapsed stepped board, otherwise `prevUpdateTime`
is unchanged and the board is only collapsed. -/
theorem step_executed_iff {D : Type} {W H : Nat} (A : DoubleArith D) (s : State D W H)
    (i : Input D) :
    (∀ (s0 : State D brdWidth brdHeight) (now : D), frame A s0 (outOfGridInput now) = none) ∧
    ((frame A s i).isSome = true ↔
      ((i.leftDown || i.rightDown) = true →
        editIndex (mouseRectCoord i.mouseX) < W ∧
          editIndex (mouseRectCoord i.mouseY) < H)) ∧
    ∀ out, frame A s i = some out →
      (out.stepped = true ↔
        (if i.keyS then !s.updateRunning else s.updateRunning) = true ∧
        (i.leftDown = false ∧ i.rightDown = false) ∧
        A.ge (A.sub i.now s.prevUpdateTime)
          (speedKeys A s.timeBetweenUpdatesSec i.keyZ i.keyX) = true) ∧
      (out.stepped = true → out.state.prevUpdateTime = i.now) ∧
      (out.stepped = false → out.state.prevUpdateTime = s.prevUpdateTime) ∧
      ∃ s2 m, editPhase (keysPhase A s i) i = some (s2, m) ∧
        out.state.brd = collapsePass (if out.stepped then stepPass s2.brd else s2.brd) := by
  refine ⟨fun s0 now => frame_outOfGrid A s0 now, frame_isSome A s i, ?_⟩
  intro out hout
  obtain ⟨s2, m, he, hst, hbrd, _, _, _, hp⟩ := frame_result A s i out hout
  obtain ⟨hm, ht, hrun, hprev⟩ := editPhase_flag _ _ _ _ he
  have hkt : (keysPhase A s i).timeBetweenUpdatesSec
      = speedKeys A s.timeBetweenUpdatesSec i.keyZ i.keyX := rfl
  have hkr : (keysPhase A s i).updateRunning
      = (if i.keyS then !s.updateRunning else s.updateRunning) := rfl
  have hkp : (keysPhase A s i).prevUpdateTime = s.prevUpdateTime := rfl
  rw [hkt] at ht
  rw [hkr] at hrun
  rw [hkp] at hprev
  have hd := tickDue_iff A s2 m i.now
  rw [hrun, ht, hprev, hm, Bool.or_eq_false_iff] at hd
  rw [← hm, ← hst] at hd
  refine ⟨hd, fun h => ?_, fun h => ?_, s2, m, he, ?_⟩
  · rw [hp, ← hst, h, if_pos rfl]
  · rw [hp, ← hst, h, if_neg Bool.false_ne_true, hprev]
  · rw [hbrd, ← hst]

/-! ## The update interval -/

theorem fastest_exact : fastestUpdateSec exactArith = (0.020 : ℚ) := rfl

theorem slowest_exact : slowestUpdateSec exactArith = (2.0 : ℚ) := rfl

theorem slowDown_exact (t : ℚ) :
    slowDown exactArith t = if t + 0.040 > (2.0 : ℚ) then 2.0 else t + 0.040 := by
  unfold slowDown slowestUpdateSec updateStepSec exactArith
  simp only [decide_eq_true_eq]

theorem speedUp_exact (t : ℚ) :
    speedUp exactArith t = if t - 0.040 < (0.020 : ℚ) then 0.020 else t - 0.040 := by
  unfold speedUp fastestUpdateSec updateStepSec exactArith
  simp only [decide_eq_true_eq]

theorem slowDown_range (t : ℚ) (h1 : fastestUpdateSec exactArith ≤ t)
    (_h2 : t ≤ slowestUpdateSec exactArith) :
    fastestUpdateSec exactArith ≤ slowDown exactArith t ∧
      slowDown exactArith t ≤ slowestUpdateSec exactArith := by
  rw [fastest_exact] at h1 ⊢
  rw [slowest_exact, slowDown_exact]
  split_ifs with h
  · norm_num
  · constructor
    · linarith
    · exact not_lt.1 h

theorem speedUp_range (t : ℚ) (_h1 : fastestUpdateSec exactArith ≤ t)
    (h2 : t ≤ slowestUpdateSec exactArith) :
    fastestUpdateSec exactArith ≤ speedUp exactArith t ∧
      speedUp exactArith t ≤ slowestUpdateSec exactArith := by
  rw [slowest_exact] at h2 ⊢
  rw [fastest_exact, speedUp_exact]
  split_ifs with h
  · norm_num
  · constructor
    · exact not_lt.1 h
    · linarith

theorem speedKeys_range (t : ℚ) (keyZ keyX : Bool) (h1 : fastestUpdateSec exactArith ≤ t)
    (h2 : t ≤ slowestUpdateSec exactArith) :
    fastestUpdateSec exactArith ≤ speedKeys exactArith t keyZ keyX ∧
      speedKeys exactArith t keyZ keyX ≤ slowestUpdateSec exactArith := by
  unfold speedKeys
  cases keyZ <;> cases keyX <;> simp only [if_true, Bool.false_eq_true, if_false]
  · exact ⟨h1, h2⟩
  · exact speedUp_range t h1 h2
  · exact slowDown_range t h1 h2
  · exact speedUp_range _ (slowDown_range t h1 h2).1 (slowDown_range t h1 h2).2

theorem pressSpeedKey_range (t : ℚ) (k : SpeedKey) (h1 : fastestUpdateSec exactArith ≤ t)
    (h2 : t ≤ slowestUpdateSec exactArith) :
    fastestUpdateSec exactArith ≤ pressSpeedKey exactArith t k ∧
      pressSpeedKey exactArith t k ≤ slowestUpdateSec exactArith := by
  cases k
  · exact slowDown_range t h1 h2
  · exact speedUp_range t h1 h2

theorem foldl_range {α : Type} (f : ℚ → α → ℚ)
    (hf : ∀ t a, fastestUpdateSec exactArith ≤ t → t ≤ slowestUpdateSec exactArith →
      fastestUpdateSec exactArith ≤ f t a ∧ f t a ≤ slowestUpdateSec exactArith)
    (l : List α) (t : ℚ) (h1 : fastestUpdateSec exactArith ≤ t)
    (h2 : t ≤ slowestUpdateSec exactArith) :
    fastestUpdateSec exactArith ≤ l.foldl f t ∧ l.foldl f t ≤ slowestUpdateSec exactArith := by
  induction l generalizing t with
  | nil => exact ⟨h1, h2⟩
  | cons a l ih => exact ih (f t a) (hf t a h1 h2).1 (hf t a h1 h2).2

theorem frame_interval {D : Type} {W H : Nat} (A : DoubleArith D) (s : State D W H)
    (i : Input D) (out : FrameResult D W H) (hout : frame A s i = some out) :
    out.state.timeBetweenUpdatesSec = speedKeys A s.timeBetweenUpdatesSec i.keyZ i.keyX := by
  obtain ⟨s2, m, he, _, _, _, ht, _, _⟩ := frame_result A s i out hout
  rw [ht, (editPhase_flag _ _ _ _ he).2.1]
  rfl

theorem runFrames_range {W H : Nat} (is : List (Input ℚ)) (s s' : State ℚ W H)
    (h1 : fastestUpdateSec exactArith ≤ s.timeBetweenUpdatesSec)
    (h2 : s.timeBetweenUpdatesSec ≤ slowestUpdateSec exactArith)
    (hrun : runFrames exactArith s is = some s') :
    fastestUpdateSec exactArith ≤ s'.timeBetweenUpdatesSec ∧
      s'.timeBetweenUpdatesSec ≤ slowestUpdateSec exactArith := by
  induction is generalizing s with
  | nil =>
    simp only [runFrames, Option.some.injEq] at hrun
    subst hrun
    exact ⟨h1, h2⟩
  | cons i is ih =>
    simp only [runFrames, Option.bind_eq_some] at hrun
    obtain ⟨out, hout, hrest⟩ := hrun
    have ht := frame_interval exactArith s i out hout
    have hr := speedKeys_range s.timeBetweenUpdatesSec i.keyZ i.keyX h1 h2
    rw [← ht] at hr
    exact ih out.state hr.1 hr.2 hrest

/-- C7: with the arithmetic of `double` taken as exact (`exactArith`), starting
from the initial interval 0.25 s, after any finite sequence of `Z` (slow down)
and `X` (speed up) commands, one a frame or both in one frame, the interval
stays within `[0.020, 2.0]`; each command maps an interval inside
`[fastestUpdateSec, slowestUpdateSec]` to one inside it, and so does every
frame of the main loop. -/
theorem interval_stays_clamped :
    (∀ ks : List SpeedKey,
      (0.020 : ℚ) ≤ ks.foldl (pressSpeedKey exactArith) 0.25 ∧
        ks.foldl (pressSpeedKey exactArith) 0.25 ≤ (2.0 : ℚ)) ∧
    (∀ ks : List (Bool × Bool),
      (0.020 : ℚ) ≤ ks.foldl (fun t k => speedKeys exactArith t k.1 k.2) 0.25 ∧
        ks.foldl (fun t k => speedKeys exactArith t k.1 k.2) 0.25 ≤ (2.0 : ℚ)) ∧
    (∀ (t : ℚ) (k : SpeedKey),
      fastestUpdateSec exactArith ≤ t → t ≤ slowestUpdateSec exactArith →
      fastestUpdateSec exactArith ≤ pressSpeedKey exactArith t k ∧
        pressSpeedKey exactArith t k ≤ slowestUpdateSec exactArith) ∧
    (∀ (mem : Board brdWidth brdHeight) (is : List (Input ℚ))
        (s : State ℚ brdWidth brdHeight),
      runFrames exactArith (initState exactArith mem) is = some s →
        (0.020 : ℚ) ≤ s.timeBetweenUpdatesSec ∧ s.timeBetweenUpdatesSec ≤ (2.0 : ℚ)) := by
  have h1 : fastestUpdateSec exactArith ≤ (0.25 : ℚ) := by
    rw [fastest_exact]
    norm_num
  have h2 : (0.25 : ℚ) ≤ slowestUpdateSec exactArith := by
    rw [slowest_exact]
    norm_num
  refine ⟨fun ks => ?_, fun ks => ?_, fun t k h1 h2 => pressSpeedKey_range t k h1 h2,
    fun mem is s hrun => ?_⟩
  · have key := foldl_range (pressSpeedKey exactArith) pressSpeedKey_range ks _ h1 h2
    rw [fastest_exact, slowest_exact] at key
    exact key
  · have key := foldl_range (fun t k => speedKeys exactArith t k.1 k.2)
      (fun t k => speedKeys_range t k.1 k.2) ks _ h1 h2
    rw [fastest_exact, slowest_exact] at key
    exact key
  · have key := runFrames_range is (initState exactArith mem) s h1 h2 hrun
    rw [fastest_exact, slowest_exact] at key
    exact key

/-! ## Collapse after an edit, and collapse twice -/

theorem rd_collapsePass_all {W H : Nat} (b : Board W H) (c r : Nat) :
    (collapsePass b).rd c r = collapseTag (b.rd c r) := by
  by_cases h : c < W ∧ r < H
  · exact rd_collapsePass b c r h.1 h.2
  · rw [rd_outside _ c r h, rd_outside _ c r h]
    rfl

/-- C8: for any board, any cell inside it and either value of `alive`, the
step pass, then the store of line 119 at that cell, then the collapse pass
leave the cell alive iff `alive` is true, whatever the step had computed for
it, and leave every other cell as the step followed by the collapse leave it
without the edit. -/
theorem edit_takes_precedence {W H : Nat} (b : Board W H) (c r : Nat) (hc : c < W) (hr : r < H)
    (alive : Bool) :
    ∃ b1, storeCell (stepPass b) c r (if alive then CellAlive else CellDead) = some b1 ∧
      ((collapsePass b1).rd c r = CellAlive ↔ alive = true) ∧
      ((collapsePass b1).rd c r = CellDead ↔ alive = false) ∧
      ∀ c' r', c' < W → r' < H → (c', r') ≠ (c, r) →
        (collapsePass b1).rd c' r' = (generation b).rd c' r' := by
  refine ⟨(stepPass b).wr c r (if alive then CellAlive else CellDead), ?_, ?_, ?_, ?_⟩
  · unfold storeCell
    rw [if_pos ⟨hc, hr⟩]
  · rw [rd_collapsePass_all, rd_wr, if_pos ⟨rfl, rfl, hc, hr⟩]
    cases alive <;> simp [collapseTag]
  · rw [rd_collapsePass_all, rd_wr, if_pos ⟨rfl, rfl, hc, hr⟩]
    cases alive <;> simp [collapseTag]
  · intro c' r' _ _ hne
    have hne' : ¬ (c' = c ∧ r' = r ∧ c < W ∧ r < H) := by
      rintro ⟨rfl, rfl, _⟩
      exact hne rfl
    unfold generation
    rw [rd_collapsePass_all, rd_wr, if_neg hne', rd_collapsePass_all]

theorem edit_takes_precedence_witness :
    ∃ b1, storeCell (stepPass (initBoard (deadBoard brdWidth brdHeight))) 5 6
        (if false then CellAlive else CellDead) = some b1 ∧
      ((collapsePass b1).rd 5 6 = CellAlive ↔ false = true) ∧
      ((collapsePass b1).rd 5 6 = CellDead ↔ false = false) ∧
      ∀ c' r', c' < brdWidth → r' < brdHeight → (c', r') ≠ (5, 6) →
        (collapsePass b1).rd c' r' =
          (generation (initBoard (deadBoard brdWidth brdHeight))).rd c' r' :=
  edit_takes_precedence (initBoard (deadBoard brdWidth brdHeight)) 5 6 (by decide) (by decide)
    false

theorem drawTest_collapsePass {W H : Nat} (b : Board W H) (p : Nat × Nat) :
    drawTest (collapsePass b) p = drawTest b p := by
  unfold drawTest
  rw [rd_collapsePass_all]
  simp only [collapseTag_live]

/-- C9: for any board over the four tags, the collapse pass applied twice gives
the same board as applied once, and the draw loop draws the same cells both
times. -/
theorem collapse_idempotent {W H : Nat} (b : Board W H) :
    collapsePass (collapsePass b) = collapsePass b ∧
      (drawPass (collapsePass b)).drawn = (drawPass b).drawn := by
  constructor
  · apply board_ext
    intro c _ r _
    rw [rd_collapsePass_all, rd_collapsePass_all, collapseTag_collapseTag]
  · rw [drawn_drawPass, drawn_drawPass]
    congr 1
    apply List.filter_congr
    intro p _
    exact drawTest_collapsePass b p


/-! ## A frame with a mouse button down -/

theorem keysPhase_no_key {D : Type} {W H : Nat} (A : DoubleArith D) (s : State D W H)
    (i : Input D) (hz : i.keyZ = false) (hx : i.keyX = false) (hc : i.keyC = false)
    (hs : i.keyS = false) : keysPhase A s i = s := by
  cases s
  simp [keysPhase, speedKeys, hz, hx, hc, hs]

theorem tickDue_button {D : Type} {W H : Nat} (A : DoubleArith D) (s : State D W H) (nowTime : D) :
    tickDue A s true nowTime = false := by
  simp [tickDue]

theorem frame_button {D : Type} {W H : Nat} (A : DoubleArith D) (s : State D W H)
    (i : Input D) (hb : (i.leftDown || i.rightDown) = true)
    (hc : editIndex (mouseRectCoord i.mouseX) < W)
    (hr : editIndex (mouseRectCoord i.mouseY) < H) :
    ∃ out, frame A s i = some out ∧ out.stepped = false ∧
      out.state.brd = collapsePass ((keysPhase A s i).brd.wr (editIndex (mouseRectCoord i.mouseX))
        (editIndex (mouseRectCoord i.mouseY)) (if i.leftDown then CellAlive else CellDead)) ∧
      out.state.timeBetweenUpdatesSec = (keysPhase A s i).timeBetweenUpdatesSec ∧
      out.state.updateRunning = (keysPhase A s i).updateRunning ∧
      out.state.prevUpdateTime = (keysPhase A s i).prevUpdateTime := by
  have he := editPhase_button (keysPhase A s i) i hb
  unfold storeCell at he
  rw [if_pos ⟨hc, hr⟩, Option.map_some'] at he
  have hsome : (frame A s i).isSome = true := by
    rw [frame_eq, Option.isSome_map', he]
    rfl
  obtain ⟨out, hout⟩ := Option.isSome_iff_exists.1 hsome
  obtain ⟨s2, m, he2, hst, hbrd, _, ht, hrun, hprev⟩ := frame_result A s i out hout
  rw [he] at he2
  have h3 := Option.some.inj he2
  have h1 := (Prod.mk.inj h3).1
  have h2 := (Prod.mk.inj h3).2
  subst h1
  subst h2
  rw [tickDue_button] at hst hbrd hprev
  rw [if_neg Bool.false_ne_true] at hbrd hprev
  exact ⟨out, hout, hst, hbrd, ht, hrun, hprev⟩

/-- C10: in a frame of the program in which a mouse button is down, the pointer
is inside the grid area and no key is pressed, no step is applied; the board
after the frame is the collapsed board of before the frame except at the cell
under the pointer, which is alive if the left button is down (the right one
down or not) and dead if only the right button is down; the running flag, the
interval and `prevUpdateTime` are unchanged. -/
theorem edit_frame {D : Type} (A : DoubleArith D) (s : State D brdWidth brdHeight)
    (i : Input D)
    (hb : i.leftDown = true ∨ i.rightDown = true)
    (hx : i.mouseX < screenWidth) (hy : i.mouseY < screenHeight)
    (hk : i.keyZ = false ∧ i.keyX = false ∧ i.keyC = false ∧ i.keyS = false) :
    ∃ out, frame A s i = some out ∧ out.stepped = false ∧
      out.state.brd.rd (i.mouseX / cellSize) (i.mouseY / cellSize) =
        (if i.leftDown then CellAlive else CellDead) ∧
      (∀ c r, (c, r) ≠ (i.mouseX / cellSize, i.mouseY / cellSize) →
        out.state.brd.rd c r = (collapsePass s.brd).rd c r) ∧
      out.state.updateRunning = s.updateRunning ∧
      out.state.timeBetweenUpdatesSec = s.timeBetweenUpdatesSec ∧
      out.state.prevUpdateTime = s.prevUpdateTime := by
  have hx' : i.mouseX < 2 ^ 32 := by
    unfold screenWidth at hx
    omega
  have hy' : i.mouseY < 2 ^ 32 := by
    unfold screenHeight at hy
    omega
  have hc : i.mouseX / cellSize < brdWidth := by
    unfold brdWidth cellSize
    unfold screenWidth at *
    omega
  have hr : i.mouseY / cellSize < brdHeight := by
    unfold brdHeight cellSize
    unfold screenHeight at *
    omega
  have hb' : (i.leftDown || i.rightDown) = true := by
    rcases hb with h | h <;> simp [h]
  have hcx := editIndex_mouseRectCoord i.mouseX hx'
  have hry := editIndex_mouseRectCoord i.mouseY hy'
  obtain ⟨out, hout, hst, hbrd, ht, hrun, hprev⟩ :=
    frame_button A s i hb' (by rw [hcx]; exact hc) (by rw [hry]; exact hr)
  rw [keysPhase_no_key A s i hk.1 hk.2.1 hk.2.2.1 hk.2.2.2] at hbrd ht hrun hprev
  rw [hcx, hry] at hbrd
  refine ⟨out, hout, hst, ?_, ?_, hrun, ht, hprev⟩
  · rw [hbrd, rd_collapsePass_all, rd_wr, if_pos ⟨rfl, rfl, hc, hr⟩]
    cases i.leftDown <;> rfl
  · intro c r hne
    have hne' : ¬ (c = i.mouseX / cellSize ∧ r = i.mouseY / cellSize ∧
        i.mouseX / cellSize < brdWidth ∧ i.mouseY / cellSize < brdHeight) := by
      rintro ⟨rfl, rfl, _⟩
      exact hne rfl
    rw [hbrd, rd_collapsePass_all, rd_wr, if_neg hne', rd_collapsePass_all]

theorem edit_frame_witness :
    ∃ out, frame exactArith (initState exactArith (deadBoard brdWidth brdHeight))
        { mouseX := 57, mouseY := 63, keyZ := false, keyX := false, keyC := false,
          keyS := false, leftDown := false, rightDown := true, now := 1 } = some out ∧
      out.stepped = false ∧
      out.state.brd.rd (57 / cellSize) (63 / cellSize) =
        (if false then CellAlive else CellDead) ∧
      (∀ c r, (c, r) ≠ (57 / cellSize, 63 / cellSize) →
        out.state.brd.rd c r =
          (collapsePass (initState exactArith (deadBoard brdWidth brdHeight)).brd).rd c r) ∧
      out.state.updateRunning = (initState exactArith (deadBoard brdWidth brdHeight)).updateRunning ∧
      out.state.timeBetweenUpdatesSec =
        (initState exactArith (deadBoard brdWidth brdHeight)).timeBetweenUpdatesSec ∧
      out.state.prevUpdateTime = (initState exactArith (deadBoard brdWidth brdHeight)).prevUpdateTime :=
  edit_frame exactArith (initState exactArith (deadBoard brdWidth brdHeight))
    { mouseX := 57, mouseY := 63, keyZ := false, keyX := false, keyC := false,
      keyS := false, leftDown := false, rightDown := true, now := 1 }
    (Or.inr rfl) (by decide) (by decide) ⟨rfl, rfl, rfl, rfl⟩


/-! ## Boards that are the product of a set of columns and a set of rows -/

theorem cp_lt (W c : Nat) (hc : c < W) (hW : W < 2 ^ 31) : cp W c < W := by
  rw [cp_eq W c hc hW]
  split_ifs <;> omega

theorem cn_lt (W c : Nat) (hc : c < W) (hW : W < 2 ^ 31) : cn W c < W := by
  rw [cn_eq W c hc hW]
  split_ifs <;> omega

theorem rp_lt (H r : Nat) (hr : r < H) (hH : H < 2 ^ 31) : rp H r < H := by
  rw [rp_eq H r hr hH]
  split_ifs <;> omega

theorem rn_lt (H r : Nat) (hr : r < H) (hH : H < 2 ^ 31) : rn H r < H := by
  rw [rn_eq H r hr hH]
  split_ifs <;> omega

theorem numAlive_product {W H : Nat} (hW : W < 2 ^ 31) (hH : H < 2 ^ 31) (b : Board W H)
    (A B : Nat → Prop) [DecidablePred A] [DecidablePred B]
    (hb : ∀ c < W, ∀ r < H, b.rd c r = if A c ∧ B r then CellAlive else CellDead)
    (c r : Nat) (hc : c < W) (hr : r < H) :
    numAlive b c r + (if A c then 1 else 0) * (if B r then 1 else 0) =
      ((if A (cp W c) then 1 else 0) + (if A c then 1 else 0) + (if A (cn W c) then 1 else 0)) *
      ((if B (rp H r) then 1 else 0) + (if B r then 1 else 0) + (if B (rn H r) then 1 else 0)) := by
  have hinc : ∀ c' < W, ∀ r' < H,
      aliveInc b c' r' = (if A c' then 1 else 0) * (if B r' then 1 else 0) := by
    intro c' hc' r' hr'
    unfold aliveInc
    rw [hb c' hc' r' hr']
    by_cases hA : A c' <;> by_cases hB : B r' <;> simp [hA, hB]
  have hcp := cp_lt W c hc hW
  have hcn := cn_lt W c hc hW
  have hrp := rp_lt H r hr hH
  have hrn := rn_lt H r hr hH
  unfold numAlive
  rw [hinc _ hcp _ hrp, hinc _ hc _ hrp, hinc _ hcn _ hrp, hinc _ hcp _ hr, hinc _ hcn _ hr,
    hinc _ hcp _ hrn, hinc _ hc _ hrn, hinc _ hcn _ hrn]
  ring

theorem generation_product {W H : Nat} (b : Board W H)
    (A B : Nat → Prop) [DecidablePred A] [DecidablePred B]
    (hb : ∀ c < W, ∀ r < H, b.rd c r = if A c ∧ B r then CellAlive else CellDead)
    (c r : Nat) (hc : c < W) (hr : r < H) :
    (generation b).rd c r =
      if ((A c ∧ B r) ∧ (numAlive b c r = 2 ∨ numAlive b c r = 3)) ∨
          (¬ (A c ∧ B r) ∧ numAlive b c r = 3) then CellAlive
      else CellDead := by
  rw [rd_generation b c r hc hr, hb c hc r hr]
  generalize numAlive b c r = n
  unfold rule collapseTag
  by_cases hAB : A c ∧ B r
  · by_cases h23 : n = 2 ∨ n = 3
    · have h23' : 2 = n ∨ 3 = n := by omega
      simp [hAB, h23, h23']
    · have h23' : ¬ (2 = n ∨ 3 = n) := by omega
      simp [hAB, h23, h23']
  · by_cases h3 : n = 3
    · simp [hAB, h3]
    · have h3' : ¬ 3 = n := by omega
      simp [hAB, h3, h3']

/-! ## Arithmetic of neighbouring indices on the ring -/

theorem prevIdx_spec (dim i : Nat) (hi : i < dim) (hd : dim < 2 ^ 31) :
    (i = 0 ∧ prevIdx dim i = dim - 1) ∨ (0 < i ∧ prevIdx dim i + 1 = i) := by
  rw [prevIdx_eq dim i hi hd]
  split_ifs <;> omega

theorem nextIdx_spec (dim i : Nat) (hi : i < dim) (hd : dim < 2 ^ 31) :
    (i + 1 = dim ∧ nextIdx dim i = 0) ∨ (i + 1 < dim ∧ nextIdx dim i = i + 1) := by
  rw [nextIdx_eq dim i hi hd]
  split_ifs <;> omega

theorem triple_full (dim x c : Nat) (hd4 : 4 ≤ dim) (hd : dim < 2 ^ 31) (hx : x < dim)
    (hc : c < dim) :
    ((prevIdx dim c = prevIdx dim x ∨ prevIdx dim c = x ∨ prevIdx dim c = nextIdx dim x) ∧
      (c = prevIdx dim x ∨ c = x ∨ c = nextIdx dim x) ∧
      (nextIdx dim c = prevIdx dim x ∨ nextIdx dim c = x ∨ nextIdx dim c = nextIdx dim x)) ↔
    c = x := by
  have h1 := prevIdx_spec dim c hc hd
  have h2 := nextIdx_spec dim c hc hd
  have h3 := prevIdx_spec dim x hx hd
  have h4 := nextIdx_spec dim x hx hd
  generalize prevIdx dim (c : Int) = pc at *
  generalize nextIdx dim (c : Int) = nc at *
  generalize prevIdx dim (x : Int) = px at *
  generalize nextIdx dim (x : Int) = nx at *
  omega

theorem point_exclusive (dim y r : Nat) (hd3 : 3 ≤ dim) (hd : dim < 2 ^ 31) (hr : r < dim) :
    ¬ (prevIdx dim r = y ∧ r = y) ∧ ¬ (prevIdx dim r = y ∧ nextIdx dim r = y) ∧
      ¬ (r = y ∧ nextIdx dim r = y) := by
  have h1 := prevIdx_spec dim r hr hd
  have h2 := nextIdx_spec dim r hr hd
  generalize prevIdx dim (r : Int) = pr at *
  generalize nextIdx dim (r : Int) = nr at *
  omega

theorem point_near (dim y r : Nat) (hd : dim < 2 ^ 31) (hy : y < dim) (hr : r < dim) :
    (prevIdx dim r = y ∨ r = y ∨ nextIdx dim r = y) ↔
      (r = prevIdx dim y ∨ r = y ∨ r = nextIdx dim y) := by
  have h1 := prevIdx_spec dim r hr hd
  have h2 := nextIdx_spec dim r hr hd
  have h3 := prevIdx_spec dim y hy hd
  have h4 := nextIdx_spec dim y hy hd
  generalize prevIdx dim (r : Int) = pr at *
  generalize nextIdx dim (r : Int) = nr at *
  generalize prevIdx dim (y : Int) = py at *
  generalize nextIdx dim (y : Int) = ny at *
  omega

theorem cross_iff (Q1 Q2 Q3 P1 P2 P3 : Prop) [Decidable Q1] [Decidable Q2] [Decidable Q3]
    [Decidable P1] [Decidable P2] [Decidable P3] (n : Nat)
    (hn : n + (if Q2 then 1 else 0) * (if P2 then 1 else 0) =
      ((if Q1 then 1 else 0) + (if Q2 then 1 else 0) + (if Q3 then 1 else 0)) *
      ((if P1 then 1 else 0) + (if P2 then 1 else 0) + (if P3 then 1 else 0)))
    (hex : ¬ (P1 ∧ P2) ∧ ¬ (P1 ∧ P3) ∧ ¬ (P2 ∧ P3)) :
    (((Q2 ∧ P2) ∧ (n = 2 ∨ n = 3)) ∨ (¬ (Q2 ∧ P2) ∧ n = 3)) ↔
      ((Q1 ∧ Q2 ∧ Q3) ∧ (P1 ∨ P2 ∨ P3)) := by
  by_cases h1 : Q1 <;> by_cases h2 : Q2 <;> by_cases h3 : Q3 <;>
    by_cases k1 : P1 <;> by_cases k2 : P2 <;> by_cases k3 : P3 <;>
    simp only [h1, h2, h3, k1, k2, k3, if_true, if_false, and_self, and_true, and_false,
      true_and, false_and, or_true, or_false, true_or, false_or, not_true_eq_false,
      not_false_eq_true, or_self, iff_true, iff_false] at hn hex ⊢ <;>
    omega

theorem cross_iff_swap (Q1 Q2 Q3 P1 P2 P3 : Prop) [Decidable Q1] [Decidable Q2]
    [Decidable Q3] [Decidable P1] [Decidable P2] [Decidable P3] (n : Nat)
    (hn : n + (if P2 then 1 else 0) * (if Q2 then 1 else 0) =
      ((if P1 then 1 else 0) + (if P2 then 1 else 0) + (if P3 then 1 else 0)) *
      ((if Q1 then 1 else 0) + (if Q2 then 1 else 0) + (if Q3 then 1 else 0)))
    (hex : ¬ (P1 ∧ P2) ∧ ¬ (P1 ∧ P3) ∧ ¬ (P2 ∧ P3)) :
    (((P2 ∧ Q2) ∧ (n = 2 ∨ n = 3)) ∨ (¬ (P2 ∧ Q2) ∧ n = 3)) ↔
      ((P1 ∨ P2 ∨ P3) ∧ (Q1 ∧ Q2 ∧ Q3)) := by
  by_cases h1 : Q1 <;> by_cases h2 : Q2 <;> by_cases h3 : Q3 <;>
    by_cases k1 : P1 <;> by_cases k2 : P2 <;> by_cases k3 : P3 <;>
    simp only [h1, h2, h3, k1, k2, k3, if_true, if_false, and_self, and_true, and_false,
      true_and, false_and, or_true, or_false, true_or, false_or, not_true_eq_false,
      not_false_eq_true, or_self, iff_true, iff_false] at hn hex ⊢ <;>
    omega

/-! ## The blinker -/

theorem generation_hline {W H : Nat} (hW4 : 4 ≤ W) (hH3 : 3 ≤ H) (hW : W < 2 ^ 31)
    (hH : H < 2 ^ 31) (x y : Nat) (hx : x < W) (hy : y < H) (b : Board W H)
    (hb : ∀ c < W, ∀ r < H, b.rd c r =
      if (c = cp W x ∨ c = x ∨ c = cn W x) ∧ r = y then CellAlive else CellDead)
    (c r : Nat) (hc : c < W) (hr : r < H) :
    (generation b).rd c r =
      if c = x ∧ (r = rp H y ∨ r = y ∨ r = rn H y) then CellAlive else CellDead := by
  rw [generation_product b (fun c => c = cp W x ∨ c = x ∨ c = cn W x) (fun r => r = y)
    hb c r hc hr]
  have hn := numAlive_product hW hH b (fun c => c = cp W x ∨ c = x ∨ c = cn W x)
    (fun r => r = y) hb c r hc hr
  apply if_congr _ rfl rfl
  rw [cross_iff _ _ _ _ _ _ _ hn (point_exclusive H y r hH3 hH hr)]
  exact and_congr (triple_full W x c hW4 hW hx hc) (point_near H y r hH hy hr)

theorem generation_vline {W H : Nat} (hW3 : 3 ≤ W) (hH4 : 4 ≤ H) (hW : W < 2 ^ 31)
    (hH : H < 2 ^ 31) (x y : Nat) (hx : x < W) (hy : y < H) (b : Board W H)
    (hb : ∀ c < W, ∀ r < H, b.rd c r =
      if c = x ∧ (r = rp H y ∨ r = y ∨ r = rn H y) then CellAlive else CellDead)
    (c r : Nat) (hc : c < W) (hr : r < H) :
    (generation b).rd c r =
      if (c = cp W x ∨ c = x ∨ c = cn W x) ∧ r = y then CellAlive else CellDead := by
  rw [generation_product b (fun c => c = x) (fun r => r = rp H y ∨ r = y ∨ r = rn H y)
    hb c r hc hr]
  have hn := numAlive_product hW hH b (fun c => c = x)
    (fun r => r = rp H y ∨ r = y ∨ r = rn H y) hb c r hc hr
  apply if_congr _ rfl rfl
  rw [cross_iff_swap _ _ _ _ _ _ _ hn (point_exclusive W x c hW3 hW hc)]
  exact and_congr (point_near W x c hW hx hc) (triple_full H y r hH4 hH hy hr)


theorem cn_ne_self (W x : Nat) (hW2 : 2 ≤ W) (hW : W < 2 ^ 31) (hx : x < W) : cn W x ≠ x := by
  have h := nextIdx_spec W x hx hW
  unfold cn
  omega

theorem vline_5x5 : ∀ c < 5, ∀ r < 5,
    ((((deadBoard 5 5).wr 2 1 CellAlive).wr 2 2 CellAlive).wr 2 3 CellAlive).rd c r =
      if c = 2 ∧ (r = rp 5 2 ∨ r = 2 ∨ r = rn 5 2) then CellAlive else CellDead := by
  decide

theorem hline_5x5 : ∀ c < 5, ∀ r < 5,
    ((((deadBoard 5 5).wr 1 2 CellAlive).wr 2 2 CellAlive).wr 3 2 CellAlive).rd c r =
      if (c = cp 5 2 ∨ c = 2 ∨ c = cn 5 2) ∧ r = 2 then CellAlive else CellDead := by
  decide

/-- C4: on a board of width and height at least 5 whose only live cells are the
three cells `(cp x, y)`, `(x, y)`, `(cn x, y)` of a horizontal line, one
generation (step pass, then collapse pass) leaves exactly the vertical line
`(x, rp y)`, `(x, y)`, `(x, rn y)` alive, a second generation gives the
original board back, and the board after one generation differs from the
original; and on the 5 by 5 dead board with cells `(2,1)`, `(2,2)`, `(2,3)` set
alive, one generation gives exactly `(1,2)`, `(2,2)`, `(3,2)` alive. -/
theorem blinker_period_two {W H : Nat} (hW5 : 5 ≤ W) (hH5 : 5 ≤ H) (hW : W < 2 ^ 31)
    (hH : H < 2 ^ 31) (x y : Nat) (hx : x < W) (hy : y < H) (b : Board W H)
    (hb : ∀ c < W, ∀ r < H, b.rd c r =
      if (c = cp W x ∨ c = x ∨ c = cn W x) ∧ r = y then CellAlive else CellDead) :
    (∀ c < W, ∀ r < H, (generation b).rd c r =
      if c = x ∧ (r = rp H y ∨ r = y ∨ r = rn H y) then CellAlive else CellDead) ∧
    generation (generation b) = b ∧
    generation b ≠ b ∧
    generation ((((deadBoard 5 5).wr 2 1 CellAlive).wr 2 2 CellAlive).wr 2 3 CellAlive) =
      (((deadBoard 5 5).wr 1 2 CellAlive).wr 2 2 CellAlive).wr 3 2 CellAlive := by
  have h1 : ∀ c < W, ∀ r < H, (generation b).rd c r =
      if c = x ∧ (r = rp H y ∨ r = y ∨ r = rn H y) then CellAlive else CellDead :=
    fun c hc r hr => generation_hline (by omega) (by omega) hW hH x y hx hy b hb c r hc hr
  refine ⟨h1, ?_, ?_, ?_⟩
  · apply board_ext
    intro c hc r hr
    rw [generation_vline (by omega) (by omega) hW hH x y hx hy (generation b) h1 c r hc hr,
      hb c hc r hr]
  · intro heq
    have hcn := cn_lt W x hx hW
    have h2 := h1 (cn W x) hcn y hy
    rw [heq, hb (cn W x) hcn y hy] at h2
    have hne := cn_ne_self W x (by omega) hW hx
    simp [hne] at h2
  · apply board_ext
    intro c hc r hr
    rw [generation_vline (by decide) (by decide) (by decide) (by decide) 2 2 (by decide)
      (by decide) _ vline_5x5 c r hc hr, hline_5x5 c hc r hr]

theorem blinker_period_two_witness :
    (∀ c < 5, ∀ r < 5,
      (generation ((((deadBoard 5 5).wr 1 2 CellAlive).wr 2 2 CellAlive).wr 3 2 CellAlive)).rd
        c r = if c = 2 ∧ (r = rp 5 2 ∨ r = 2 ∨ r = rn 5 2) then CellAlive else CellDead) ∧
    generation (generation
        ((((deadBoard 5 5).wr 1 2 CellAlive).wr 2 2 CellAlive).wr 3 2 CellAlive)) =
      (((deadBoard 5 5).wr 1 2 CellAlive).wr 2 2 CellAlive).wr 3 2 CellAlive ∧
    generation ((((deadBoard 5 5).wr 1 2 CellAlive).wr 2 2 CellAlive).wr 3 2 CellAlive) ≠
      (((deadBoard 5 5).wr 1 2 CellAlive).wr 2 2 CellAlive).wr 3 2 CellAlive ∧
    generation ((((deadBoard 5 5).wr 2 1 CellAlive).wr 2 2 CellAlive).wr 2 3 CellAlive) =
      (((deadBoard 5 5).wr 1 2 CellAlive).wr 2 2 CellAlive).wr 3 2 CellAlive :=
  blinker_period_two (by decide) (by decide) (by decide) (by decide) 2 2 (by decide)
    (by decide) _ hline_5x5


/-! ## The block -/

theorem pair_facts (dim x c : Nat) (hd4 : 4 ≤ dim) (hd : dim < 2 ^ 31) (hx : x < dim)
    (hc : c < dim) :
    ((c = x ∨ c = nextIdx dim x) →
      ((prevIdx dim c = x ∨ prevIdx dim c = nextIdx dim x) ∨
          (nextIdx dim c = x ∨ nextIdx dim c = nextIdx dim x)) ∧
        ¬ ((prevIdx dim c = x ∨ prevIdx dim c = nextIdx dim x) ∧
          (nextIdx dim c = x ∨ nextIdx dim c = nextIdx dim x))) ∧
    (¬ (c = x ∨ c = nextIdx dim x) →
      ¬ ((prevIdx dim c = x ∨ prevIdx dim c = nextIdx dim x) ∧
        (nextIdx dim c = x ∨ nextIdx dim c = nextIdx dim x))) := by
  have h1 := prevIdx_spec dim c hc hd
  have h2 := nextIdx_spec dim c hc hd
  have h4 := nextIdx_spec dim x hx hd
  generalize prevIdx dim (c : Int) = pc at *
  generalize nextIdx dim (c : Int) = nc at *
  generalize nextIdx dim (x : Int) = nx at *
  omega

theorem block_iff (A1 A2 A3 B1 B2 B3 : Prop) [Decidable A1] [Decidable A2] [Decidable A3]
    [Decidable B1] [Decidable B2] [Decidable B3] (n : Nat)
    (hn : n + (if A2 then 1 else 0) * (if B2 then 1 else 0) =
      ((if A1 then 1 else 0) + (if A2 then 1 else 0) + (if A3 then 1 else 0)) *
      ((if B1 then 1 else 0) + (if B2 then 1 else 0) + (if B3 then 1 else 0)))
    (hA : (A2 → (A1 ∨ A3) ∧ ¬ (A1 ∧ A3)) ∧ (¬ A2 → ¬ (A1 ∧ A3)))
    (hB : (B2 → (B1 ∨ B3) ∧ ¬ (B1 ∧ B3)) ∧ (¬ B2 → ¬ (B1 ∧ B3))) :
    (((A2 ∧ B2) ∧ (n = 2 ∨ n = 3)) ∨ (¬ (A2 ∧ B2) ∧ n = 3)) ↔ (A2 ∧ B2) := by
  by_cases h1 : A1 <;> by_cases h2 : A2 <;> by_cases h3 : A3 <;>
    by_cases k1 : B1 <;> by_cases k2 : B2 <;> by_cases k3 : B3 <;>
    simp only [h1, h2, h3, k1, k2, k3, if_true, if_false, and_self, and_true, and_false,
      true_and, false_and, or_true, or_false, true_or, false_or, not_true_eq_false,
      not_false_eq_true, or_self, iff_true, iff_false, true_implies, false_implies,
      implies_true] at hn hA hB ⊢ <;>
    omega

theorem generation_block {W H : Nat} (hW4 : 4 ≤ W) (hH4 : 4 ≤ H) (hW : W < 2 ^ 31)
    (hH : H < 2 ^ 31) (x y : Nat) (hx : x < W) (hy : y < H) (b : Board W H)
    (hb : ∀ c < W, ∀ r < H, b.rd c r =
      if (c = x ∨ c = cn W x) ∧ (r = y ∨ r = rn H y) then CellAlive else CellDead) :
    generation b = b := by
  apply board_ext
  intro c hc r hr
  rw [generation_product b (fun c => c = x ∨ c = cn W x) (fun r => r = y ∨ r = rn H y)
    hb c r hc hr, hb c hc r hr]
  have hn := numAlive_product hW hH b (fun c => c = x ∨ c = cn W x)
    (fun r => r = y ∨ r = rn H y) hb c r hc hr
  apply if_congr _ rfl rfl
  exact block_iff _ _ _ _ _ _ _ hn (pair_facts W x c hW4 hW hx hc)
    (pair_facts H y r hH4 hH hy hr)

theorem block_4x4 : ∀ c < 4, ∀ r < 4,
    (((((deadBoard 4 4).wr 3 3 CellAlive).wr 0 3 CellAlive).wr 3 0 CellAlive).wr
      0 0 CellAlive).rd c r =
      if (c = 3 ∨ c = cn 4 3) ∧ (r = 3 ∨ r = rn 4 3) then CellAlive else CellDead := by
  decide

/-- C5: on a board of width and height at least 4 whose only live cells are
the 2 by 2 block `(x, y)`, `(cn x, y)`, `(x, rn y)`, `(cn x, rn y)`, at any
position and also across the wrapped edges, the board after any number `n` of
generations (step pass, then collapse pass) is the initial board. -/
theorem block_still_life {W H : Nat} (hW4 : 4 ≤ W) (hH4 : 4 ≤ H) (hW : W < 2 ^ 31)
    (hH : H < 2 ^ 31) (x y : Nat) (hx : x < W) (hy : y < H) (b : Board W H)
    (hb : ∀ c < W, ∀ r < H, b.rd c r =
      if (c = x ∨ c = cn W x) ∧ (r = y ∨ r = rn H y) then CellAlive else CellDead)
    (n : Nat) :
    generation^[n] b = b := by
  have hfix := generation_block hW4 hH4 hW hH x y hx hy b hb
  induction n with
  | zero => rfl
  | succ n ih => rw [Function.iterate_succ_apply, hfix, ih]

theorem block_still_life_witness :
    generation^[7] (((((deadBoard 4 4).wr 3 3 CellAlive).wr 0 3 CellAlive).wr
      3 0 CellAlive).wr 0 0 CellAlive) =
      ((((deadBoard 4 4).wr 3 3 CellAlive).wr 0 3 CellAlive).wr 3 0 CellAlive).wr
        0 0 CellAlive :=
  block_still_life (by decide) (by decide) (by decide) (by decide) 3 3 (by decide) (by decide)
    _ block_4x4 7


/-! ## The running flag -/

theorem frame_running {D : Type} {W H : Nat} (A : DoubleArith D) (s : State D W H)
    (i : Input D) (out : FrameResult D W H) (hout : frame A s i = some out) :
    out.state.updateRunning = (if i.keyS then !s.updateRunning else s.updateRunning) := by
  obtain ⟨s2, m, he, _, _, _, _, hrun, _⟩ := frame_result A s i out hout
  rw [hrun, (editPhase_flag _ _ _ _ he).2.2.1]
  rfl

theorem frame_stepped_running {D : Type} {W H : Nat} (A : DoubleArith D) (s : State D W H)
    (i : Input D) (out : FrameResult D W H) (hout : frame A s i = some out) (hst : out.stepped = true) :
    out.state.updateRunning = true := by
  obtain ⟨s2, m, he, hs, _, _, _, hrun, _⟩ := frame_result A s i out hout
  rw [hs] at hst
  rw [hrun]
  exact ((tickDue_iff A s2 m i.now).1 hst).1

theorem paused_never_steps {D : Type} {W H : Nat} (A : DoubleArith D) (is : List (Input D))
    (s : State D W H) (hp : s.updateRunning = false) (hk : ∀ i ∈ is, i.keyS = false)
    (outs : List (FrameResult D W H)) (hrun : runResults A s is = some outs) :
    ∀ out ∈ outs, out.stepped = false ∧ out.state.updateRunning = false := by
  induction is generalizing s outs with
  | nil =>
    simp only [runResults, Option.some.injEq] at hrun
    subst hrun
    intro out hmem
    cases hmem
  | cons i is ih =>
    simp only [runResults, Option.bind_eq_some, Option.map_eq_some'] at hrun
    obtain ⟨out, hout, rest, hrest, houts⟩ := hrun
    subst houts
    have hS : i.keyS = false := hk i (List.mem_cons_self i is)
    have hr := frame_running A s i out hout
    rw [hS, hp] at hr
    have hr' : out.state.updateRunning = false := by simpa using hr
    have hst : out.stepped = false := by
      cases h : out.stepped
      · rfl
      · have h2 := frame_stepped_running A s i out hout h
        rw [hr'] at h2
        cases h2
    intro o hmem
    rcases List.mem_cons.1 hmem with h | h
    · subst h
      exact ⟨hst, hr'⟩
    · exact ih out.state hr' (fun j hj => hk j (List.mem_cons_of_mem i hj)) rest hrest o h

theorem runResults_outOfGrid {D : Type} (A : DoubleArith D) (s : State D brdWidth brdHeight)
    (now : D) (is : List (Input D)) : runResults A s (outOfGridInput now :: is) = none := by
  unfold runResults
  rw [frame_outOfGrid A s now]
  rfl

/-- C11 (code defect shared with C3): in the program, a frame with the left
button down, no key pressed and the pointer at pixel `(800, 0)` stores outside
the board and has no defined result, and neither has a run that begins with
it, so nothing holds of the running flag or of later steps.  In every frame
with a defined result, and for every arithmetic of `double`, the running flag
afterwards is the negation of the flag before iff the start/stop key `S` is
pressed in that frame, and is the flag before otherwise, whatever edit, clear,
speed command or step the frame holds; hence in a run of frames with results
that starts paused and in which `S` is never pressed no frame executes the step
pass, whatever the times reported. -/
theorem running_toggles_only_on_S {D : Type} {W H : Nat} (A : DoubleArith D)
    (s : State D W H) :
    (∀ (s0 : State D brdWidth brdHeight) (now : D) (is : List (Input D)),
      frame A s0 (outOfGridInput now) = none ∧
        runResults A s0 (outOfGridInput now :: is) = none) ∧
    (∀ i out, frame A s i = some out →
      ((out.state.updateRunning = !s.updateRunning) ↔ i.keyS = true) ∧
      ((out.state.updateRunning = s.updateRunning) ↔ i.keyS = false)) ∧
    (s.updateRunning = false →
      ∀ is outs, (∀ i ∈ is, i.keyS = false) → runResults A s is = some outs →
        ∀ out ∈ outs, out.stepped = false) := by
  refine ⟨fun s0 now is => ⟨frame_outOfGrid A s0 now, runResults_outOfGrid A s0 now is⟩, ?_, ?_⟩
  · intro i out hout
    have hr := frame_running A s i out hout
    rw [hr]
    cases i.keyS <;> cases s.updateRunning <;> simp
  · intro hp is outs hk hrun out hmem
    exact (paused_never_steps A is s hp hk outs hrun out hmem).1


/-! ## The step pass does not depend on the scan order -/

theorem rd_ofFn {W H : Nat} (f : Nat → Nat → Cell) (c r : Nat) (hc : c < W) (hr : r < H) :
    (Board.ofFn f : Board W H).rd c r = f c r := by
  unfold Board.rd Board.ofFn
  rw [dif_pos ⟨hc, hr⟩, Mathlib.Vector.get_ofFn, Mathlib.Vector.get_ofFn]

theorem mem_cellsRowMajor (W H c r : Nat) : (c, r) ∈ cellsRowMajor W H ↔ c < W ∧ r < H := by
  simp only [cellsRowMajor, List.mem_flatMap, List.mem_map, List.mem_range, Prod.mk.injEq]
  constructor
  · rintro ⟨r', hr', c', hc', rfl, rfl⟩
    exact ⟨hc', hr'⟩
  · rintro ⟨hc, hr⟩
    exact ⟨r, hr, c, hc, rfl, rfl⟩

theorem forCellsRowMajor_eq_foldl {σ : Type} (W H : Nat) (body : σ → Nat → Nat → σ) (s : σ) :
    forCellsRowMajor W H body s = (cellsRowMajor W H).foldl (fun s p => body s p.1 p.2) s := by
  unfold forCellsRowMajor cellsRowMajor
  rw [foldl_flatMap_eq]
  simp only [List.foldl_map]

theorem rd_stepPassRowMajor {W H : Nat} (b : Board W H) (c r : Nat) (hc : c < W)
    (hr : r < H) :
    (stepPassRowMajor b).rd c r = rule (b.rd c r) (numAlive b c r) := by
  unfold stepPassRowMajor
  rw [forCellsRowMajor_eq_foldl,
    foldl_stepCell b _ (fun p hp => (mem_cellsRowMajor W H p.1 p.2).1 hp),
    if_pos ((mem_cellsRowMajor W H c r).2 ⟨hc, hr⟩)]

/-- C13: for every board over the four tags the in-place step pass in the
order of the code (columns outer, rows inner) gives the same board as the same
pass in raster order (rows outer, columns inner) and as the computation into a
second buffer from the unmodified board: the result does not depend on the
scan order. -/
theorem step_order_independent {W H : Nat} (b : Board W H) :
    stepPass b = stepPassRowMajor b ∧ stepPass b = stepTwoBuffer b := by
  constructor
  · apply board_ext
    intro c hc r hr
    rw [rd_stepPass b c r hc hr, rd_stepPassRowMajor b c r hc hr]
  · apply board_ext
    intro c hc r hr
    unfold stepTwoBuffer
    rw [rd_stepPass b c r hc hr, rd_ofFn _ c r hc hr]

/-! ## The was-alive classification during the step pass -/

theorem rd_stepPrefix {W H : Nat} (k : Nat) (b : Board W H) (c r : Nat) :
    (stepPrefix k b).rd c r =
      if (c, r) ∈ (cells W H).take k then rule (b.rd c r) (numAlive b c r) else b.rd c r := by
  unfold stepPrefix
  exact foldl_stepCell b _
    (fun p hp => (mem_cells W H p.1 p.2).1 (List.mem_of_mem_take hp)) c r

theorem stepPrefix_length {W H : Nat} (b : Board W H) :
    stepPrefix (cells W H).length b = stepPass b := by
  unfold stepPrefix stepPass
  rw [List.take_length, forCells_eq_foldl]

theorem length_cells (W H : Nat) : (cells W H).length = W * H := by
  unfold cells
  induction W with
  | zero => simp
  | succ W ih =>
    rw [List.range_succ, List.flatMap_append, List.length_append, ih]
    simp [Nat.succ_mul]

theorem wasAlive_stepPrefix {W H : Nat} (k : Nat) (b : Board W H) (c r : Nat) :
    ((stepPrefix k b).rd c r = CellAlive ∨ (stepPrefix k b).rd c r = CellAliveDeadNext) ↔
      (b.rd c r = CellAlive ∨ b.rd c r = CellAliveDeadNext) := by
  rw [rd_stepPrefix]
  split_ifs
  · exact rule_wasAlive _ _
  · exact Iff.rfl

theorem aliveInc_stepPrefix {W H : Nat} (k : Nat) (b : Board W H) (c r : Nat) :
    aliveInc (stepPrefix k b) c r = aliveInc b c r := by
  unfold aliveInc
  exact if_congr (wasAlive_stepPrefix k b c r) rfl rfl

/-- C14: at every point of the step pass (after the first `k` cells of the
scan, for every `k`) and after the whole pass, a cell's tag is `CellAlive` or
`CellAliveDeadNext` iff it was so before the pass; hence every neighbour count
taken during the pass equals the count taken in the board before the pass. -/
theorem step_preserves_was_alive {W H : Nat} (b : Board W H) (c r : Nat) :
    (∀ k, (((stepPrefix k b).rd c r = CellAlive ∨
          (stepPrefix k b).rd c r = CellAliveDeadNext) ↔
        (b.rd c r = CellAlive ∨ b.rd c r = CellAliveDeadNext)) ∧
      numAlive (stepPrefix k b) c r = numAlive b c r) ∧
    stepPrefix 0 b = b ∧ stepPrefix (W * H) b = stepPass b ∧
    (((stepPass b).rd c r = CellAlive ∨ (stepPass b).rd c r = CellAliveDeadNext) ↔
      (b.rd c r = CellAlive ∨ b.rd c r = CellAliveDeadNext)) ∧
    numAlive (stepPass b) c r = numAlive b c r := by
  have hlen : stepPrefix (W * H) b = stepPass b := by
    rw [← length_cells W H, stepPrefix_length]
  refine ⟨fun k => ⟨wasAlive_stepPrefix k b c r,
    numAlive_congr b _ (aliveInc_stepPrefix k b) c r⟩, ?_, hlen, ?_, ?_⟩
  · unfold stepPrefix
    rw [List.take_zero, List.foldl_nil]
  · rw [← hlen]
    exact wasAlive_stepPrefix _ b c r
  · rw [← hlen]
    exact numAlive_congr b _ (aliveInc_stepPrefix _ b) c r


/-! ## The tags left by the step pass -/

/-- C12: on a board of dead and alive cells, after the step pass and before the
collapse every cell's tag is fixed by its tag and its live-neighbour count `n`
before the step: `CellAlive` if it was alive and `n` is 2 or 3,
`CellAliveDeadNext` if it was alive and `n` is neither, `CellDeadAliveNext` if
it was dead and `n = 3`, `CellDead` if it was dead and `n` is not 3; so the tag
is `CellAlive` or `CellAliveDeadNext` iff the cell was alive, and `CellAlive`
or `CellDeadAliveNext` iff the cell is alive after the collapse. -/
theorem step_tags {W H : Nat} (hW : W < 2 ^ 31) (hH : H < 2 ^ 31) (b : Board W H)
    (h2 : ∀ c < W, ∀ r < H, b.rd c r = CellDead ∨ b.rd c r = CellAlive)
    (c r : Nat) (hc : c < W) (hr : r < H) :
    (b.rd c r = CellAlive ∧ (liveNeighbours b c r = 2 ∨ liveNeighbours b c r = 3) →
      (stepPass b).rd c r = CellAlive) ∧
    (b.rd c r = CellAlive ∧ ¬ (liveNeighbours b c r = 2 ∨ liveNeighbours b c r = 3) →
      (stepPass b).rd c r = CellAliveDeadNext) ∧
    (b.rd c r = CellDead ∧ liveNeighbours b c r = 3 →
      (stepPass b).rd c r = CellDeadAliveNext) ∧
    (b.rd c r = CellDead ∧ liveNeighbours b c r ≠ 3 → (stepPass b).rd c r = CellDead) ∧
    (((stepPass b).rd c r = CellAlive ∨ (stepPass b).rd c r = CellAliveDeadNext) ↔
      b.rd c r = CellAlive) ∧
    (((stepPass b).rd c r = CellAlive ∨ (stepPass b).rd c r = CellDeadAliveNext) ↔
      (collapsePass (stepPass b)).rd c r = CellAlive) := by
  rw [rd_collapsePass_all, rd_stepPass b c r hc hr,
    numAlive_eq_liveNeighbours hW hH b h2 c r hc hr]
  generalize liveNeighbours b c r = n
  rcases h2 c hc r hr with h | h <;> rw [h] <;> unfold rule collapseTag <;>
    refine ⟨?_, ?_, ?_, ?_, ?_, ?_⟩ <;> split_ifs <;> simp_all <;> omega

theorem step_tags_witness :
    ((initBoard (deadBoard brdWidth brdHeight)).rd 5 6 = CellAlive ∧
        (liveNeighbours (initBoard (deadBoard brdWidth brdHeight)) 5 6 = 2 ∨
          liveNeighbours (initBoard (deadBoard brdWidth brdHeight)) 5 6 = 3) →
      (stepPass (initBoard (deadBoard brdWidth brdHeight))).rd 5 6 = CellAlive) ∧
    ((initBoard (deadBoard brdWidth brdHeight)).rd 5 6 = CellAlive ∧
        ¬ (liveNeighbours (initBoard (deadBoard brdWidth brdHeight)) 5 6 = 2 ∨
          liveNeighbours (initBoard (deadBoard brdWidth brdHeight)) 5 6 = 3) →
      (stepPass (initBoard (deadBoard brdWidth brdHeight))).rd 5 6 = CellAliveDeadNext) ∧
    ((initBoard (deadBoard brdWidth brdHeight)).rd 5 6 = CellDead ∧
        liveNeighbours (initBoard (deadBoard brdWidth brdHeight)) 5 6 = 3 →
      (stepPass (initBoard (deadBoard brdWidth brdHeight))).rd 5 6 = CellDeadAliveNext) ∧
    ((initBoard (deadBoard brdWidth brdHeight)).rd 5 6 = CellDead ∧
        liveNeighbours (initBoard (deadBoard brdWidth brdHeight)) 5 6 ≠ 3 →
      (stepPass (initBoard (deadBoard brdWidth brdHeight))).rd 5 6 = CellDead) ∧
    (((stepPass (initBoard (deadBoard brdWidth brdHeight))).rd 5 6 = CellAlive ∨
        (stepPass (initBoard (deadBoard brdWidth brdHeight))).rd 5 6 = CellAliveDeadNext) ↔
      (initBoard (deadBoard brdWidth brdHeight)).rd 5 6 = CellAlive) ∧
    (((stepPass (initBoard (deadBoard brdWidth brdHeight))).rd 5 6 = CellAlive ∨
        (stepPass (initBoard (deadBoard brdWidth brdHeight))).rd 5 6 = CellDeadAliveNext) ↔
      (collapsePass (stepPass (initBoard (deadBoard brdWidth brdHeight)))).rd 5 6 =
        CellAlive) :=
  step_tags (by decide) (by decide) (initBoard (deadBoard brdWidth brdHeight))
    (fun c _ r _ => initBoard_two_state _ c r) 5 6 (by decide) (by decide)

/-! ## The step pass twice -/

theorem rule_next (t : Cell) (n : Nat)
    (h : t = CellAliveDeadNext ∨ t = CellDeadAliveNext) : rule t n = t := by
  unfold rule
  rcases h with h | h <;> subst h <;> simp

theorem aliveInc_stepPass {W H : Nat} (b : Board W H) (c r : Nat) :
    aliveInc (stepPass b) c r = aliveInc b c r := by
  rw [← stepPrefix_length]
  exact aliveInc_stepPrefix _ b c r

/-- C19: for every board over the four tags, the step pass run twice with no
collapse in between gives the same board as run once; a cell tagged
`CellAliveDeadNext` or `CellDeadAliveNext` is left unchanged by a step pass,
and the neighbour counts of the second pass are those of the first. -/
theorem step_idempotent {W H : Nat} (b : Board W H) :
    stepPass (stepPass b) = stepPass b ∧
    (∀ c r, b.rd c r = CellAliveDeadNext ∨ b.rd c r = CellDeadAliveNext →
      (stepPass b).rd c r = b.rd c r) ∧
    (∀ c r, numAlive (stepPass b) c r = numAlive b c r) := by
  have hnum : ∀ c r, numAlive (stepPass b) c r = numAlive b c r :=
    fun c r => numAlive_congr b _ (aliveInc_stepPass b) c r
  refine ⟨?_, ?_, hnum⟩
  · apply board_ext
    intro c hc r hr
    rw [rd_stepPass _ c r hc hr, hnum c r, rd_stepPass b c r hc hr, rule_rule]
  · intro c r h
    by_cases hin : c < W ∧ r < H
    · rw [rd_stepPass b c r hin.1 hin.2, rule_next _ _ h]
    · rw [rd_outside _ c r hin, rd_outside _ c r hin]


/-! ## Boards at the end of a frame -/

theorem keysPhase_brd {D : Type} {W H : Nat} (A : DoubleArith D) (s : State D W H) (i : Input D) :
    (keysPhase A s i).brd = if i.keyC then clearPass s.brd else s.brd := rfl

theorem rd_deadBoard (W H c r : Nat) : (deadBoard W H).rd c r = CellDead := by
  unfold Board.rd deadBoard
  split_ifs
  · rw [Mathlib.Vector.get_replicate, Mathlib.Vector.get_replicate]
  · rfl

theorem clearPass_eq {W H : Nat} (b : Board W H) : clearPass b = deadBoard W H := by
  apply board_ext
  intro c _ r _
  rw [rd_clearPass, rd_deadBoard]

theorem numAlive_deadBoard (W H c r : Nat) : numAlive (deadBoard W H) c r = 0 := by
  simp [numAlive, aliveInc, rd_deadBoard]

theorem stepPass_deadBoard (W H : Nat) : stepPass (deadBoard W H) = deadBoard W H := by
  apply board_ext
  intro c hc r hr
  rw [rd_stepPass _ c r hc hr, numAlive_deadBoard, rd_deadBoard]
  rfl

theorem collapsePass_deadBoard (W H : Nat) : collapsePass (deadBoard W H) = deadBoard W H := by
  apply board_ext
  intro c _ r _
  rw [rd_collapsePass_all, rd_deadBoard]
  rfl

theorem frame_no_button {D : Type} {W H : Nat} (A : DoubleArith D) (s : State D W H)
    (i : Input D) (hl : i.leftDown = false) (hr : i.rightDown = false) :
    ∃ out, frame A s i = some out ∧
      out.stepped = tickDue A (keysPhase A s i) false i.now ∧
      out.state.brd = collapsePass (if tickDue A (keysPhase A s i) false i.now
        then stepPass (keysPhase A s i).brd else (keysPhase A s i).brd) := by
  have he := editPhase_no_button (keysPhase A s i) i hl hr
  have hsome : (frame A s i).isSome = true := by
    rw [frame_eq, Option.isSome_map', he]
    rfl
  obtain ⟨out, hout⟩ := Option.isSome_iff_exists.1 hsome
  obtain ⟨s2, m, he2, hst, hbrd, _⟩ := frame_result A s i out hout
  rw [he] at he2
  have h3 := Option.some.inj he2
  have h1 := (Prod.mk.inj h3).1
  have h2 := (Prod.mk.inj h3).2
  subst h1
  subst h2
  exact ⟨out, hout, hst, hbrd⟩

/-- C16: the clear command leaves every cell `CellDead`; the all-dead board is
a fixed point of the step pass and of the collapse pass; and in every frame in
which the clear key is pressed and no mouse button is down the board at the end
of the frame is all dead, the step pass executed in that frame (the test of
line 123 true) or not, for every arithmetic of `double`. -/
theorem clear_frame_all_dead {D : Type} {W H : Nat} (A : DoubleArith D) :
    (∀ (b : Board W H) c r, (clearPass b).rd c r = CellDead) ∧
    stepPass (deadBoard W H) = deadBoard W H ∧
    collapsePass (deadBoard W H) = deadBoard W H ∧
    ∀ (s : State D W H) (i : Input D),
      i.keyC = true → i.leftDown = false → i.rightDown = false →
      ∃ out, frame A s i = some out ∧ out.stepped = tickDue A (keysPhase A s i) false i.now ∧
        out.state.brd = deadBoard W H ∧ ∀ c r, out.state.brd.rd c r = CellDead := by
  refine ⟨fun b c r => rd_clearPass b c r, stepPass_deadBoard W H, collapsePass_deadBoard W H,
    fun s i hc hl hr => ?_⟩
  obtain ⟨out, hout, hst, hbrd⟩ := frame_no_button A s i hl hr
  have hk : (keysPhase A s i).brd = deadBoard W H := by
    rw [keysPhase_brd, if_pos hc, clearPass_eq]
  have hd : out.state.brd = deadBoard W H := by
    rw [hbrd, hk]
    split_ifs
    · rw [stepPass_deadBoard, collapsePass_deadBoard]
    · rw [collapsePass_deadBoard]
  refine ⟨out, hout, hst, hd, fun c r => ?_⟩
  rw [hd, rd_deadBoard]

/-! ## The cell under the pointer -/

/-- C17: for a pointer at pixel `(x, y)` with `x < 800` and `y < 640` the cell
edited while a mouse button is down is `(x / 10, y / 10)`, with column below 80
and row below 64: going through `mouseRect` (divide by `cellSize`, multiply by
`cellSize`, divide by `cellSize` again) loses nothing. -/
theorem pointer_cell (x y : Nat) (hx : x < 800) (hy : y < 640) :
    editIndex (mouseRectCoord x) = x / 10 ∧ editIndex (mouseRectCoord y) = y / 10 ∧
    x / 10 < 80 ∧ y / 10 < 64 ∧ brdWidth = 80 ∧ brdHeight = 64 ∧ cellSize = 10 ∧
    ∀ (D : Type) (s : State D brdWidth brdHeight) (i : Input D), i.mouseX = x → i.mouseY = y →
      (i.leftDown || i.rightDown) = true →
      editPhase s i = some ({ s with brd := (s.brd.wr (x / 10) (y / 10)
        (if i.leftDown then CellAlive else CellDead)) }, true) := by
  have h1 : editIndex (mouseRectCoord x) = x / 10 := editIndex_mouseRectCoord x (by omega)
  have h2 : editIndex (mouseRectCoord y) = y / 10 := editIndex_mouseRectCoord y (by omega)
  have hw : brdWidth = 80 := by decide
  have hh : brdHeight = 64 := by decide
  refine ⟨h1, h2, by omega, by omega, hw, hh, rfl, fun D s i hmx hmy hb => ?_⟩
  rw [editPhase_button s i hb, hmx, hmy, h1, h2]
  unfold storeCell
  rw [if_pos ⟨by rw [hw]; omega, by rw [hh]; omega⟩, Option.map_some']

theorem pointer_cell_witness :
    editIndex (mouseRectCoord 799) = 799 / 10 ∧ editIndex (mouseRectCoord 639) = 639 / 10 ∧
    799 / 10 < 80 ∧ 639 / 10 < 64 ∧ brdWidth = 80 ∧ brdHeight = 64 ∧ cellSize = 10 ∧
    ∀ (D : Type) (s : State D brdWidth brdHeight) (i : Input D),
      i.mouseX = 799 → i.mouseY = 639 →
      (i.leftDown || i.rightDown) = true →
      editPhase s i = some ({ s with brd := (s.brd.wr (799 / 10) (639 / 10)
        (if i.leftDown then CellAlive else CellDead)) }, true) :=
  pointer_cell 799 639 (by decide) (by decide)


/-! ## One generation commutes with the translations of the torus -/

theorem shiftIdx_spec (dim : Nat) (d : Int) (hd : 0 < dim) :
    ∃ k < dim, ∀ j < dim,
      (j + k < dim ∧ shiftIdx dim d j = j + k) ∨
        (dim ≤ j + k ∧ shiftIdx dim d j + dim = j + k) := by
  have hpos : (0 : Int) < (dim : Int) := by omega
  have h0 : 0 ≤ (-d) % (dim : Int) := Int.emod_nonneg _ (by omega)
  have h1 : (-d) % (dim : Int) < (dim : Int) := Int.emod_lt_of_pos _ hpos
  refine ⟨((-d) % (dim : Int)).toNat, by omega, fun j hj => ?_⟩
  have hk : (((-d) % (dim : Int)).toNat : Int) = (-d) % (dim : Int) := Int.toNat_of_nonneg h0
  have hsum : ((j : Int) - d) % (dim : Int) = ((j : Int) + (-d) % (dim : Int)) % (dim : Int) := by
    rw [Int.add_emod_emod, sub_eq_add_neg]
  unfold shiftIdx
  rw [hsum]
  generalize (-d) % (dim : Int) = D at *
  by_cases hlt : (j : Int) + D < (dim : Int)
  · left
    rw [Int.emod_eq_of_lt (by omega) hlt]
    omega
  · right
    have h2 : (j : Int) + D = ((j : Int) + D - (dim : Int)) + 1 * (dim : Int) := by ring
    rw [h2, Int.add_mul_emod_self, Int.emod_eq_of_lt (by omega) (by omega)]
    omega

theorem shiftIdx_lt (dim : Nat) (d : Int) (i : Nat) (hi : i < dim) : shiftIdx dim d i < dim := by
  obtain ⟨k, hk, hspec⟩ := shiftIdx_spec dim d (by omega)
  have h := hspec i hi
  omega

theorem shiftIdx_prev (dim : Nat) (d : Int) (i : Nat) (hi : i < dim) (hd : dim < 2 ^ 31) :
    shiftIdx dim d (prevIdx dim i) = prevIdx dim (shiftIdx dim d i) := by
  obtain ⟨k, hk, hspec⟩ := shiftIdx_spec dim d (by omega)
  have hp := prevIdx_spec dim i hi hd
  have hpl : prevIdx dim i < dim := by omega
  have hs := hspec i hi
  have hsl : shiftIdx dim d i < dim := by omega
  have hsp := hspec (prevIdx dim i) hpl
  have hps := prevIdx_spec dim (shiftIdx dim d i) hsl hd
  generalize shiftIdx dim d (prevIdx dim (i : Int)) = a at *
  generalize prevIdx dim ((shiftIdx dim d i : Nat) : Int) = e at *
  generalize shiftIdx dim d i = f at *
  generalize prevIdx dim (i : Int) = g at *
  omega

theorem shiftIdx_next (dim : Nat) (d : Int) (i : Nat) (hi : i < dim) (hd : dim < 2 ^ 31) :
    shiftIdx dim d (nextIdx dim i) = nextIdx dim (shiftIdx dim d i) := by
  obtain ⟨k, hk, hspec⟩ := shiftIdx_spec dim d (by omega)
  have hp := nextIdx_spec dim i hi hd
  have hpl : nextIdx dim i < dim := by omega
  have hs := hspec i hi
  have hsl : shiftIdx dim d i < dim := by omega
  have hsp := hspec (nextIdx dim i) hpl
  have hps := nextIdx_spec dim (shiftIdx dim d i) hsl hd
  generalize shiftIdx dim d (nextIdx dim (i : Int)) = a at *
  generalize nextIdx dim ((shiftIdx dim d i : Nat) : Int) = e at *
  generalize shiftIdx dim d i = f at *
  generalize nextIdx dim (i : Int) = g at *
  omega

theorem rd_shift {W H : Nat} (dx dy : Int) (b : Board W H) (c r : Nat) (hc : c < W)
    (hr : r < H) : (shift dx dy b).rd c r = b.rd (shiftIdx W dx c) (shiftIdx H dy r) := by
  unfold shift
  rw [rd_ofFn _ c r hc hr]

theorem aliveInc_shift {W H : Nat} (dx dy : Int) (b : Board W H) (c r : Nat) (hc : c < W)
    (hr : r < H) :
    aliveInc (shift dx dy b) c r = aliveInc b (shiftIdx W dx c) (shiftIdx H dy r) := by
  unfold aliveInc
  rw [rd_shift dx dy b c r hc hr]

theorem numAlive_shift {W H : Nat} (hW : W < 2 ^ 31) (hH : H < 2 ^ 31) (dx dy : Int)
    (b : Board W H) (c r : Nat) (hc : c < W) (hr : r < H) :
    numAlive (shift dx dy b) c r = numAlive b (shiftIdx W dx c) (shiftIdx H dy r) := by
  have hcp := cp_lt W c hc hW
  have hcn := cn_lt W c hc hW
  have hrp := rp_lt H r hr hH
  have hrn := rn_lt H r hr hH
  have e1 : shiftIdx W dx (cp W c) = cp W (shiftIdx W dx c) := shiftIdx_prev W dx c hc hW
  have e2 : shiftIdx W dx (cn W c) = cn W (shiftIdx W dx c) := shiftIdx_next W dx c hc hW
  have e3 : shiftIdx H dy (rp H r) = rp H (shiftIdx H dy r) := shiftIdx_prev H dy r hr hH
  have e4 : shiftIdx H dy (rn H r) = rn H (shiftIdx H dy r) := shiftIdx_next H dy r hr hH
  unfold numAlive
  rw [aliveInc_shift dx dy b _ _ hcp hrp, aliveInc_shift dx dy b _ _ hc hrp,
    aliveInc_shift dx dy b _ _ hcn hrp, aliveInc_shift dx dy b _ _ hcp hr,
    aliveInc_shift dx dy b _ _ hcn hr, aliveInc_shift dx dy b _ _ hcp hrn,
    aliveInc_shift dx dy b _ _ hc hrn, aliveInc_shift dx dy b _ _ hcn hrn, e1, e2, e3, e4]

/-- C18: one generation (step pass, then collapse pass) commutes with every
translation of the torus: translating a board by `(dx, dy)` modulo width and
height and then applying one generation gives the same board as applying one
generation and then translating; no row or column is treated as an edge. -/
theorem generation_commutes_with_shift {W H : Nat} (hW : W < 2 ^ 31) (hH : H < 2 ^ 31)
    (g : Board W H) (dx dy : Int) :
    generation (shift dx dy g) = shift dx dy (generation g) := by
  apply board_ext
  intro c hc r hr
  rw [rd_generation _ c r hc hr, rd_shift dx dy g c r hc hr,
    numAlive_shift hW hH dx dy g c r hc hr, rd_shift dx dy _ c r hc hr,
    rd_generation g _ _ (shiftIdx_lt W dx c hc) (shiftIdx_lt H dy r hr)]

theorem generation_commutes_with_shift_witness :
    generation (shift 3 (-70) (initBoard (deadBoard brdWidth brdHeight))) =
      shift 3 (-70) (generation (initBoard (deadBoard brdWidth brdHeight))) :=
  generation_commutes_with_shift (by decide) (by decide)
    (initBoard (deadBoard brdWidth brdHeight)) 3 (-70)

end GameOfLife
